import Mathlib

/-!
# fenbushi: a Kademlia-style DHT (shiyan2/k_bucket.go, shiyan1/kad_dht.go)

Shallow embedding of the Go sources and the properties checked against them.

Modelling conventions.

* `*big.Int` identifiers are `Int`; `distance` is the two's-complement XOR that
  `big.Int.Xor` computes.
* `[]byte` values are `Slice = Option Bytes`: `none` is the nil slice, which is what
  `GetValue` returns for "absent". `string(b)` is `bytesOf b`.
* `*Peer` is a pointer `Ptr` into a heap `Heap = Ptr → Peer`; every peer owns its own
  `Data` map, as `NewPeer` allocates it.
* `map[string]*Peer` and `map[string][]byte` are association lists. A `range` loop over
  a Go map visits the entries in an unspecified order, so every such loop takes the
  sequence it visits as an argument (`Runs`); the sequence is a permutation of the map.
* `crypto/sha1` is a parameter `sha1 : Bytes → Bytes` of the operations that hash; `SHA1`
  is the function itself, passed where a property is evaluated on concrete inputs.
* A run-time panic is the result `Res.panic`.
-/

namespace KBucket

/-! ## Data model -/

abbrev Byte := Fin 256

abbrev Bytes := List Byte

/-- A Go byte slice: `none` is the nil slice, `some bs` a non-nil slice with contents `bs`. -/
abbrev Slice := Option Bytes

/-- The conversion `string(b)` of a byte slice; the nil slice converts to the empty string. -/
def bytesOf (b : Slice) : Bytes := b.getD []

/-- Result of a call that may end in a run-time panic. -/
inductive Res (α : Type) where
  | ok (a : α)
  | panic
  deriving DecidableEq, Repr

/-- Bucket size. -/
def K : Nat := 3

/-- Maximum number of buckets. -/
def N : Nat := 160

structure Node where
  ID : Int
  deriving DecidableEq, Repr

structure Bucket where
  Nodes : List Node
  deriving DecidableEq, Repr

def NewBucket : Bucket := { Nodes := [] }

/-- The method `big.Int.Xor` on two's-complement integers. -/
def distance (a b : Int) : Int := Int.xor a b

/-- Insert a node into the bucket: no change when the identifier is present, append when
there is room, otherwise drop the oldest node and append. -/
def Bucket.Insert (b : Bucket) (n : Node) : Bucket :=
  if b.Nodes.any (fun node => decide (node.ID = n.ID)) then b
  else if b.Nodes.length < K then { Nodes := b.Nodes ++ [n] }
  else { Nodes := b.Nodes.drop 1 ++ [n] }

/-- The type `map[string][]byte` as an association list, looked up from the front. -/
abbrev Store := List (Bytes × Slice)

/-- The read `m[k]` with its `ok` flag: `none` when the key is not in the map. -/
def Store.lookup : Store → Bytes → Option Slice
  | [], _ => none
  | (k', v) :: rest, k => if k' = k then some v else Store.lookup rest k

/-- The write `m[k] = v`: replaces the entry under `k`, or adds one. -/
def Store.insert : Store → Bytes → Slice → Store
  | [], k, v => [(k, v)]
  | (k', v') :: rest, k, v =>
    if k' = k then (k, v) :: rest else (k', v') :: Store.insert rest k v

structure DHT where
  Buckets : List Bucket
  deriving DecidableEq, Repr

structure Peer where
  ID : Int
  DHT : DHT
  Data : Store
  deriving DecidableEq, Repr

/-- The method `big.Int.SetBytes`: the bytes read as a big-endian unsigned integer. -/
def SetBytes (bs : Bytes) : Int :=
  ((bs.foldl (fun acc b => acc * 256 + b.val) 0 : Nat) : Int)

def NewPeer (sha1 : Bytes → Bytes) (id : Bytes) : Peer :=
  { ID := SetBytes (sha1 id)
    DHT := { Buckets := List.replicate N NewBucket }
    Data := [] }

/-- A pointer `*Peer`. -/
abbrev Ptr := Nat

/-- The peers allocated so far, by pointer. -/
abbrev Heap := Ptr → Peer

/-- Little-endian decimal digits of a natural number, `fuel` bounding the digit count. -/
def decimalDigits : Nat → Nat → List Nat
  | 0, _ => []
  | fuel + 1, n => if n < 10 then [n] else (n % 10) :: decimalDigits fuel (n / 10)

/-- Decimal text of a natural number. -/
def natString (n : Nat) : List Char :=
  ((decimalDigits (n + 1) n).reverse.map Nat.digitChar)

/-- The method `big.Int.String`: the decimal text, with a leading minus sign when negative. -/
def bigString : Int → String
  | Int.ofNat n => String.mk (natString n)
  | Int.negSucc n => String.mk ('-' :: natString (n + 1))

/-- The directory `map[string]*Peer`, as an association list of its entries. -/
structure Network where
  Peers : List (String × Ptr)
  deriving DecidableEq, Repr

def NewNetwork : Network := { Peers := [] }

/-- The write `m[k] = p` on the directory map. -/
def putPeer : List (String × Ptr) → String → Ptr → List (String × Ptr)
  | [], k, p => [(k, p)]
  | (k', p') :: rest, k, p =>
    if k' = k then (k, p) :: rest else (k', p') :: putPeer rest k p

def AddPeer (h : Heap) (n : Network) (p : Ptr) : Network :=
  { Peers := putPeer n.Peers (bigString (h p).ID) p }

/-- The entry sequences visited by the three `range n.Peers` loops of one
`FindClosestPeers` call: the distance scan, the inner loop run for `distances[0]` and
the inner loop run for `distances[1]`. -/
structure Runs where
  scan : List (String × Ptr)
  first : List (String × Ptr)
  second : List (String × Ptr)
  deriving DecidableEq, Repr

/-- Each loop visits every entry of the directory exactly once, in some order. -/
def Runs.valid (n : Network) (r : Runs) : Prop :=
  r.scan.Perm n.Peers ∧ r.first.Perm n.Peers ∧ r.second.Perm n.Peers

/-- The loop order that follows the association list. -/
def Runs.inOrder (n : Network) : Runs :=
  { scan := n.Peers, first := n.Peers, second := n.Peers }

/-- The inner loop of `FindClosestPeers`: the peers of the visited entries whose distance
to `id` equals `dist`, in visiting order. -/
def matching (h : Heap) (id dist : Int) : List (String × Ptr) → List Ptr
  | [] => []
  | (_, peer) :: rest =>
    if distance (h peer).ID id = dist then peer :: matching h id dist rest
    else matching h id dist rest

/-- The closest peers to `id`. The slice `distances` has capacity `len(n.Peers)`, so
`distances[:2]` panics when fewer than two peers are registered. -/
def FindClosestPeers (h : Heap) (n : Network) (r : Runs) (id : Int) : Res (List Ptr) :=
  let distances := (r.scan.map (fun e => distance (h e.2).ID id)).insertionSort (· ≤ ·)
  if n.Peers.length < 2 then Res.panic
  else
    match distances with
    | d0 :: d1 :: _ => Res.ok (matching h id d0 r.first ++ matching h id d1 r.second)
    | _ => Res.panic

/-- The assignment `peer.Data[string(key)] = value`. -/
def writeData (h : Heap) (peer : Ptr) (key : Bytes) (value : Slice) : Heap :=
  Function.update h peer { h peer with Data := (h peer).Data.insert key value }

/-- The replication loop of `SetValue` over the slice `closestPeers`. -/
def writeAll (h : Heap) (key : Bytes) (value : Slice) : List Ptr → Heap
  | [] => h
  | peer :: rest => writeAll (writeData h peer key value) key value rest

/-- The method `Peer.SetValue`: the returned flag (or panic) and the heap afterwards.
The bucket index computed in the source is never used. -/
def SetValue (sha1 : Bytes → Bytes) (h : Heap) (r : Runs) (p : Ptr) (key : Bytes)
    (value : Slice) (network : Network) : Res Bool × Heap :=
  let hashedValue := sha1 (bytesOf value)
  if key ≠ hashedValue then (Res.ok false, h)
  else if (Store.lookup (h p).Data key).isSome then (Res.ok true, h)
  else
    let intKey := SetBytes key
    match FindClosestPeers h network r intKey with
    | Res.panic => (Res.panic, h)
    | Res.ok closestPeers =>
      (Res.ok true, writeData (writeAll h key value closestPeers) p key value)

/-- The lookup loop of `GetValue` over the slice `closestPeers`: the first held value
that hashes to `key`, or nil. -/
def firstValidated (sha1 : Bytes → Bytes) (h : Heap) (key : Bytes) : List Ptr → Slice
  | [] => none
  | peer :: rest =>
    match Store.lookup (h peer).Data key with
    | some value =>
      if key = sha1 (bytesOf value) then value else firstValidated sha1 h key rest
    | none => firstValidated sha1 h key rest

/-- The method `Peer.GetValue`; it writes nothing. -/
def GetValue (sha1 : Bytes → Bytes) (h : Heap) (r : Runs) (p : Ptr) (key : Bytes)
    (network : Network) : Res Slice :=
  match Store.lookup (h p).Data key with
  | some value => Res.ok value
  | none =>
    match FindClosestPeers h network r (SetBytes key) with
    | Res.panic => Res.panic
    | Res.ok closestPeers => Res.ok (firstValidated sha1 h key closestPeers)

/-- Distance from the peer of a directory entry to the target. -/
def entryDist (h : Heap) (id : Int) (e : String × Ptr) : Int := distance (h e.2).ID id

/-- The distances from the listed entries to the target, in ascending order. -/
def sortedDistances (h : Heap) (id : Int) (l : List (String × Ptr)) : List Int :=
  (l.map (entryDist h id)).insertionSort (· ≤ ·)

/-- Every entry of the store is filed under the hash of its value. -/
def contentAddressed (sha1 : Bytes → Bytes) (s : Store) : Prop :=
  ∀ e ∈ s, sha1 (bytesOf e.2) = e.1

instance (sha1 : Bytes → Bytes) (s : Store) : Decidable (contentAddressed sha1 s) := by
  unfold contentAddressed
  infer_instance

/-- The peer holds `key` with a value that hashes to `key`: the test `GetValue` applies
to each candidate. -/
def holdsValidated (sha1 : Bytes → Bytes) (h : Heap) (key : Bytes) (peer : Ptr) : Bool :=
  match Store.lookup (h peer).Data key with
  | some value => decide (key = sha1 (bytesOf value))
  | none => false

/-- A call made by a peer on the network. -/
inductive Call where
  | set (r : Runs) (p : Ptr) (key : Bytes) (value : Slice)
  | get (r : Runs) (p : Ptr) (key : Bytes)
  deriving DecidableEq, Repr

/-- The call is a `SetValue` with key `k`. -/
def Call.setsKey (k : Bytes) : Call → Bool
  | Call.set _ _ key _ => decide (key = k)
  | Call.get _ _ _ => false

/-- The heap after one call; `GetValue` writes nothing. -/
def step (sha1 : Bytes → Bytes) (n : Network) (h : Heap) : Call → Heap
  | Call.set r p key value => (SetValue sha1 h r p key value n).2
  | Call.get _ _ _ => h

/-- The heap after a sequence of calls. -/
def runCalls (sha1 : Bytes → Bytes) (n : Network) (h : Heap) (calls : List Call) : Heap :=
  calls.foldl (step sha1 n) h

/-- A 20-byte checksum used to instantiate the hash on concrete inputs. -/
def sumHash (bs : Bytes) : Bytes :=
  List.replicate 20 (Fin.ofNat (bs.foldl (fun acc b => acc + b.val) 0))

/-- A peer as `NewPeer` leaves it, with the given identifier. -/
def freshPeer (id : Int) : Peer :=
  { ID := id, DHT := { Buckets := List.replicate N NewBucket }, Data := [] }

/-- Five peers with identifiers 3, 10, 17, 24, 31 and empty stores. -/
def heap5 : Heap := fun i => freshPeer (7 * (i : Int) + 3)

/-- The five peers of `heap5`, registered with `AddPeer`. -/
def net5 : Network := [0, 1, 2, 3, 4].foldl (AddPeer heap5) NewNetwork

/-- The heap `heap5` after peer 0 received an entry whose value does not hash to its
key, and peer 1 an entry that does. -/
def heapStale : Heap :=
  writeData (writeData heap5 0 (sumHash [1]) (some [9])) 1 (sumHash [1]) (some [1])

/-- Every entry is filed under the decimal text of its peer identifier, and no key
occurs twice. -/
def keyedByID (h : Heap) (l : List (String × Ptr)) : Prop :=
  (l.map Prod.fst).Nodup ∧ ∀ e ∈ l, e.1 = bigString (h e.2).ID

/-- The network built from `NewNetwork()` by calling `AddPeer` on the listed peers in
turn. -/
def registerAll (h : Heap) (ps : List Ptr) : Network :=
  ps.foldl (AddPeer h) NewNetwork

/-- Three peers, the last two with the same identifier 2. -/
def heapTie : Heap := fun i => freshPeer (if i = 0 then 1 else 2)

/-- A directory that holds the three peers of `heapTie` under three different keys. -/
def netTie : Network := { Peers := [("1", 0), ("2", 1), ("02", 2)] }

/-- The bucket after `Insert` calls for the listed identifiers, made in turn on `b`. -/
def insertAll (b : Bucket) (ids : List Int) : Bucket :=
  ids.foldl (fun acc id => acc.Insert { ID := id }) b

/-- The identifiers held by the bucket, oldest first. -/
def Bucket.ids (b : Bucket) : List Int := b.Nodes.map Node.ID

/-! ### The library function `crypto/sha1`

The operations take the hash as a parameter; `SHA1` is the function the Go programs
pass, used where a property is evaluated on concrete inputs. -/

/-- Rotate a 32-bit word left by `k` bits. -/
def rotl32 (x k : Nat) : Nat := ((x <<< k) ||| (x >>> (32 - k))) % 2 ^ 32

/-- The `len` big-endian bytes of a number. -/
def bigEndian : Nat → Nat → Bytes
  | 0, _ => []
  | len + 1, x => Fin.ofNat (x >>> (8 * len)) :: bigEndian len x

/-- The padded message: the byte 0x80, zero bytes up to 56 modulo 64, and the length of
the message in bits as 8 bytes. -/
def sha1Pad (msg : Bytes) : Bytes :=
  msg ++ [0x80] ++ List.replicate ((119 - msg.length % 64) % 64) 0
    ++ bigEndian 8 (8 * msg.length)

/-- The 32-bit big-endian words of a byte sequence. -/
def words32 : Bytes → List Nat
  | a :: b :: c :: d :: rest =>
    (a.val * 2 ^ 24 + b.val * 2 ^ 16 + c.val * 2 ^ 8 + d.val) :: words32 rest
  | _ => []

/-- The message schedule, newest word first, extended by `count` words. -/
def schedule : Nat → List Nat → List Nat
  | 0, w => w
  | count + 1, w =>
    schedule count
      (rotl32 (w.getD 2 0 ^^^ w.getD 7 0 ^^^ w.getD 13 0 ^^^ w.getD 15 0) 1 :: w)

/-- The five 32-bit words of the chaining state. -/
structure Sha1State where
  a : Nat
  b : Nat
  c : Nat
  d : Nat
  e : Nat
  deriving DecidableEq, Repr

/-- Round `iw.1` of the compression function, on the schedule word `iw.2`. -/
def sha1Round (s : Sha1State) (iw : Nat × Nat) : Sha1State :=
  let i := iw.1
  let f :=
    if i < 20 then (s.b &&& s.c) ||| ((s.b ^^^ (2 ^ 32 - 1)) &&& s.d)
    else if i < 40 then s.b ^^^ s.c ^^^ s.d
    else if i < 60 then (s.b &&& s.c) ||| (s.b &&& s.d) ||| (s.c &&& s.d)
    else s.b ^^^ s.c ^^^ s.d
  let k :=
    if i < 20 then 0x5A827999
    else if i < 40 then 0x6ED9EBA1
    else if i < 60 then 0x8F1BBCDC
    else 0xCA62C1D6
  { a := (rotl32 s.a 5 + f + s.e + k + iw.2) % 2 ^ 32
    b := s.a
    c := rotl32 s.b 30
    d := s.c
    e := s.d }

/-- The compression of one block of 16 words into the chaining state. -/
def sha1Block (s : Sha1State) (block : List Nat) : Sha1State :=
  let w := (schedule 64 block.reverse).reverse
  let t := ((List.range 80).zip w).foldl sha1Round s
  { a := (s.a + t.a) % 2 ^ 32
    b := (s.b + t.b) % 2 ^ 32
    c := (s.c + t.c) % 2 ^ 32
    d := (s.d + t.d) % 2 ^ 32
    e := (s.e + t.e) % 2 ^ 32 }

/-- The blocks compressed in turn; `count` bounds their number. -/
def sha1Blocks : Nat → Sha1State → List Nat → Sha1State
  | 0, s, _ => s
  | count + 1, s, ws =>
    if ws.length < 16 then s else sha1Blocks count (sha1Block s (ws.take 16)) (ws.drop 16)

/-- The 20-byte SHA-1 digest that `sha1.New()`, `Write` and `Sum(nil)` compute. -/
def SHA1 (msg : Bytes) : Bytes :=
  let ws := words32 (sha1Pad msg)
  let s := sha1Blocks ws.length
    { a := 0x67452301, b := 0xEFCDAB89, c := 0x98BADCFE, d := 0x10325476, e := 0xC3D2E1F0 }
    ws
  bigEndian 4 s.a ++ bigEndian 4 s.b ++ bigEndian 4 s.c ++ bigEndian 4 s.d
    ++ bigEndian 4 s.e

/-- The conversion `[]byte(z.String())`: the bytes of the decimal text, which is ASCII. -/
def bigBytes (z : Int) : Bytes :=
  (bigString z).data.map (fun ch => Fin.ofNat ch.toNat)

/-- The loops of a `SetValue` call visit the whole directory. -/
def Call.runsValid (n : Network) : Call → Prop
  | Call.set r _ _ _ => r.valid n
  | Call.get _ _ _ => True

/-- The call is a `SetValue` whose value is the nil slice. -/
def Call.storesNil : Call → Bool
  | Call.set _ _ _ value => value.isNone
  | Call.get _ _ _ => false

/-- Every peer that `FindClosestPeers(k)` returns holds `k` with a value hashing to `k`. -/
def replicated (sha1 : Bytes → Bytes) (h : Heap) (n : Network) (k : Bytes) : Prop :=
  ∀ r cs, r.valid n → FindClosestPeers h n r (SetBytes k) = Res.ok cs →
    ∀ c ∈ cs, ∃ v, Store.lookup (h c).Data k = some v ∧ sha1 (bytesOf v) = k

/-- Four peers with identifiers 1, 2, 2 and 200 and empty stores. -/
def heapTie4 : Heap := fun i =>
  freshPeer (if i = 0 then 1 else if i = 1 then 2 else if i = 2 then 2 else 200)

/-- A directory that holds the four peers of `heapTie4` under four different keys. -/
def netTie4 : Network := { Peers := [("1", 0), ("2", 1), ("02", 2), ("200", 3)] }

/-- The heap after peer 3 of `netTie4` has called `SetValue(sha1(""), "", net)`. -/
def heapTie4After : Heap :=
  (SetValue SHA1 heapTie4 (Runs.inOrder netTie4) 3 (SHA1 []) (some []) netTie4).2

/-- The peers `NewPeer("0")`, `NewPeer("1")`, ... that `main` creates first. -/
def heapMain : Heap := fun i => NewPeer SHA1 [Fin.ofNat (48 + i)]

/-- The first five peers of `heapMain`, registered with `AddPeer`. -/
def netMain : Network := registerAll heapMain [0, 1, 2, 3, 4]

/-- The heap after peer 0 of `netMain` has called `SetValue(sha1(nil), nil, net)`. -/
def heapMainNil : Heap :=
  runCalls SHA1 netMain heapMain [Call.set (Runs.inOrder netMain) 0 (SHA1 []) none]

end KBucket

/-! ## shiyan1/kad_dht.go

The declarations of `K`, `Node`, `Bucket`, `NewBucket`, `distance`, `Bucket.Insert`,
`Network` and `NewNetwork` in this file have the same text as in shiyan2/k_bucket.go and
are embedded once, above. The peer has one bucket and no store, and `FindClosestPeers`
takes the name of the target and hashes it. -/

namespace KadDHT

open KBucket

structure Peer where
  ID : Int
  Bucket : Bucket
  deriving DecidableEq, Repr

def NewPeer (sha1 : Bytes → Bytes) (id : Bytes) : Peer :=
  { ID := SetBytes (sha1 id), Bucket := NewBucket }

/-- The peers allocated so far, by pointer. -/
abbrev Heap := Ptr → Peer

/-- The inner loop of `FindClosestPeers`: the peers of the visited entries whose distance
to `intID` equals `dist`, in visiting order. -/
def matching (h : Heap) (intID dist : Int) : List (String × Ptr) → List Ptr
  | [] => []
  | (_, peer) :: rest =>
    if distance (h peer).ID intID = dist then peer :: matching h intID dist rest
    else matching h intID dist rest

/-- The two closest peers to the identifier of `nodeID`; `distances[:2]` panics when fewer
than two peers are registered. -/
def FindClosestPeers (sha1 : Bytes → Bytes) (h : Heap) (n : Network) (r : Runs)
    (nodeID : Bytes) : Res (List Ptr) :=
  let intID := SetBytes (sha1 nodeID)
  let distances := (r.scan.map (fun e => distance (h e.2).ID intID)).insertionSort (· ≤ ·)
  if n.Peers.length < 2 then Res.panic
  else
    match distances with
    | d0 :: d1 :: _ =>
      Res.ok (matching h intID d0 r.first ++ matching h intID d1 r.second)
    | _ => Res.panic

/-- Five peers with identifiers 3, 10, 17, 24, 31 and empty buckets. -/
def heap5 : Heap := fun i => { ID := 7 * (i : Int) + 3, Bucket := NewBucket }

/-- Add the node named `nodeID` to the bucket of peer `p`. -/
def InsertNode (sha1 : Bytes → Bytes) (h : Heap) (p : Ptr) (nodeID : Bytes) : Heap :=
  let intID := SetBytes (sha1 nodeID)
  Function.update h p { h p with Bucket := (h p).Bucket.Insert { ID := intID } }

/-- Whether the bucket of peer `p` holds the identifier of the name `nodeID`. -/
def FindNode (sha1 : Bytes → Bytes) (h : Heap) (p : Ptr) (nodeID : Bytes) : Bool :=
  let intID := SetBytes (sha1 nodeID)
  (h p).Bucket.Nodes.any (fun node => decide (node.ID = intID))

/-- The loop of `BroadcastNode`: `InsertNode(text)` on the peer of each visited entry. -/
def insertEach (sha1 : Bytes → Bytes) (h : Heap) (text : Bytes) : List (String × Ptr) → Heap
  | [] => h
  | (_, peer) :: rest => insertEach sha1 (InsertNode sha1 h peer text) text rest

/-- The method `Network.BroadcastNode`; `run` is the sequence of directory entries that
its `range n.Peers` loop visits. The name is hashed, and every peer is handed the decimal
text of the hash as the name to insert. -/
def BroadcastNode (sha1 : Bytes → Bytes) (h : Heap) (run : List (String × Ptr))
    (nodeID : Bytes) : Heap :=
  let intID := SetBytes (sha1 nodeID)
  insertEach sha1 h (bigBytes intID) run

/-- Register a peer in the directory under the decimal text of its identifier. -/
def AddPeer (h : Heap) (n : Network) (p : Ptr) : Network :=
  { Peers := putPeer n.Peers (bigString (h p).ID) p }

/-- The peers `NewPeer("0")`, `NewPeer("1")`, ... that `main` creates first. -/
def heapMain : Heap := fun i => NewPeer SHA1 [Fin.ofNat (48 + i)]

/-- The first five peers of `heapMain`, registered with `AddPeer`. -/
def netMain : Network := [0, 1, 2, 3, 4].foldl (AddPeer heapMain) NewNetwork

end KadDHT

namespace KBucket

/-! ## Stores -/

theorem Store.lookup_insert_self (s : Store) (k : Bytes) (v : Slice) :
    Store.lookup (Store.insert s k v) k = some v := by
  induction s with
  | nil => simp [Store.insert, Store.lookup]
  | cons e rest ih =>
    obtain ⟨k', v'⟩ := e
    by_cases hk : k' = k
    · simp [Store.insert, Store.lookup, hk]
    · simp [Store.insert, Store.lookup, hk, ih]

theorem Store.lookup_insert_ne (s : Store) (k k' : Bytes) (v : Slice) (hne : k' ≠ k) :
    Store.lookup (Store.insert s k v) k' = Store.lookup s k' := by
  induction s with
  | nil => simp [Store.insert, Store.lookup, Ne.symm hne]
  | cons e rest ih =>
    obtain ⟨k1, v1⟩ := e
    by_cases hk : k1 = k
    · subst hk
      simp [Store.insert, Store.lookup, Ne.symm hne]
    · by_cases hk' : k1 = k'
      · subst hk'
        simp [Store.insert, Store.lookup, hk]
      · simp [Store.insert, Store.lookup, hk, hk', ih]

theorem Store.mem_insert (s : Store) (k : Bytes) (v : Slice) (e : Bytes × Slice)
    (he : e ∈ Store.insert s k v) : e ∈ s ∨ e = (k, v) := by
  induction s with
  | nil => simpa [Store.insert] using he
  | cons e1 rest ih =>
    obtain ⟨k1, v1⟩ := e1
    by_cases hk : k1 = k
    · simp only [Store.insert, hk, if_true, List.mem_cons] at he
      rcases he with he | he
      · exact Or.inr he
      · exact Or.inl (List.mem_cons_of_mem _ he)
    · simp only [Store.insert, hk, if_false, List.mem_cons] at he
      rcases he with he | he
      · exact Or.inl (he ▸ List.mem_cons_self _ _)
      · rcases ih he with h1 | h1
        · exact Or.inl (List.mem_cons_of_mem _ h1)
        · exact Or.inr h1

/-! ## Heap writes -/

theorem writeData_ID (h : Heap) (peer : Ptr) (key : Bytes) (value : Slice) (x : Ptr) :
    (writeData h peer key value x).ID = (h x).ID := by
  unfold writeData
  by_cases hx : x = peer
  · subst hx; simp
  · simp [Function.update, hx]

theorem writeData_same (h : Heap) (peer : Ptr) (key : Bytes) (value : Slice) :
    (writeData h peer key value peer).Data = Store.insert (h peer).Data key value := by
  simp [writeData]

theorem writeData_other (h : Heap) (peer : Ptr) (key : Bytes) (value : Slice) (x : Ptr)
    (hx : x ≠ peer) : writeData h peer key value x = h x := by
  simp [writeData, Function.update, hx]

theorem writeData_lookup_key (h : Heap) (peer : Ptr) (key : Bytes) (value : Slice)
    (x : Ptr) (hx : x = peer ∨ Store.lookup (h x).Data key = some value) :
    Store.lookup (writeData h peer key value x).Data key = some value := by
  by_cases hxp : x = peer
  · subst hxp
    rw [writeData_same, Store.lookup_insert_self]
  · rw [writeData_other h peer key value x hxp]
    exact hx.resolve_left hxp

theorem writeData_lookup_ne (h : Heap) (peer : Ptr) (key k : Bytes) (value : Slice)
    (x : Ptr) (hk : k ≠ key) :
    Store.lookup (writeData h peer key value x).Data k = Store.lookup (h x).Data k := by
  by_cases hxp : x = peer
  · subst hxp
    rw [writeData_same, Store.lookup_insert_ne _ _ _ _ hk]
  · rw [writeData_other h peer key value x hxp]

theorem writeData_mem (h : Heap) (peer : Ptr) (key : Bytes) (value : Slice) (x : Ptr)
    (e : Bytes × Slice) (he : e ∈ (writeData h peer key value x).Data) :
    e ∈ (h x).Data ∨ e = (key, value) := by
  by_cases hxp : x = peer
  · subst hxp
    rw [writeData_same] at he
    exact Store.mem_insert _ _ _ _ he
  · rw [writeData_other h peer key value x hxp] at he
    exact Or.inl he

theorem writeAll_ID (h : Heap) (key : Bytes) (value : Slice) (cs : List Ptr) (x : Ptr) :
    (writeAll h key value cs x).ID = (h x).ID := by
  induction cs generalizing h with
  | nil => rfl
  | cons c rest ih => simp [writeAll, ih, writeData_ID]

theorem writeAll_not_mem (h : Heap) (key : Bytes) (value : Slice) (cs : List Ptr) (x : Ptr)
    (hx : x ∉ cs) : writeAll h key value cs x = h x := by
  induction cs generalizing h with
  | nil => rfl
  | cons c rest ih =>
    simp only [List.mem_cons, not_or] at hx
    simp [writeAll, ih _ hx.2, writeData_other h c key value x hx.1]

theorem writeAll_lookup_key (h : Heap) (key : Bytes) (value : Slice) (cs : List Ptr)
    (x : Ptr) (hx : x ∈ cs ∨ Store.lookup (h x).Data key = some value) :
    Store.lookup (writeAll h key value cs x).Data key = some value := by
  induction cs generalizing h with
  | nil => simpa [writeAll] using hx
  | cons c rest ih =>
    simp only [writeAll]
    apply ih
    rcases hx with hx | hx
    · rcases List.mem_cons.1 hx with hx | hx
      · exact Or.inr (writeData_lookup_key h c key value x (Or.inl hx))
      · exact Or.inl hx
    · exact Or.inr (writeData_lookup_key h c key value x (Or.inr hx))

theorem writeAll_lookup_ne (h : Heap) (key k : Bytes) (value : Slice) (cs : List Ptr)
    (x : Ptr) (hk : k ≠ key) :
    Store.lookup (writeAll h key value cs x).Data k = Store.lookup (h x).Data k := by
  induction cs generalizing h with
  | nil => rfl
  | cons c rest ih => simp [writeAll, ih, writeData_lookup_ne h c key k value x hk]

theorem writeAll_mem (h : Heap) (key : Bytes) (value : Slice) (cs : List Ptr) (x : Ptr)
    (e : Bytes × Slice) (he : e ∈ (writeAll h key value cs x).Data) :
    e ∈ (h x).Data ∨ e = (key, value) := by
  induction cs generalizing h with
  | nil => exact Or.inl he
  | cons c rest ih =>
    rcases ih _ he with h1 | h1
    · exact writeData_mem h c key value x e h1
    · exact Or.inr h1

/-! ## Closest peers -/

theorem matching_eq (h : Heap) (id dist : Int) (run : List (String × Ptr)) :
    matching h id dist run
      = (run.filter (fun e => decide (entryDist h id e = dist))).map Prod.snd := by
  induction run with
  | nil => rfl
  | cons e rest ih =>
    obtain ⟨k, c⟩ := e
    have ih' := ih
    unfold entryDist at ih'
    by_cases hd : distance (h c).ID id = dist
    · simp [matching, entryDist, hd, ih']
    · simp [matching, entryDist, hd, ih']

theorem mem_matching (h : Heap) (id dist : Int) (run : List (String × Ptr)) (c : Ptr) :
    c ∈ matching h id dist run ↔ ∃ e ∈ run, e.2 = c ∧ entryDist h id e = dist := by
  rw [matching_eq]
  simp only [List.mem_map, List.mem_filter, decide_eq_true_eq]
  constructor
  · rintro ⟨e, ⟨he, hd⟩, hc⟩
    exact ⟨e, he, hc, hd⟩
  · rintro ⟨e, he, hc, hd⟩
    exact ⟨e, ⟨he, hd⟩, hc⟩

theorem sortedDistances_perm (h : Heap) (id : Int) (l1 l2 : List (String × Ptr))
    (hp : l1.Perm l2) : sortedDistances h id l1 = sortedDistances h id l2 := by
  unfold sortedDistances
  apply List.eq_of_perm_of_sorted (r := (· ≤ ·))
  · exact ((List.perm_insertionSort _ _).trans (hp.map _)).trans
      (List.perm_insertionSort _ _).symm
  · exact List.sorted_insertionSort _ _
  · exact List.sorted_insertionSort _ _

theorem sortedDistances_length (h : Heap) (id : Int) (l : List (String × Ptr)) :
    (sortedDistances h id l).length = l.length := by
  simp [sortedDistances, List.length_insertionSort]

theorem mem_sortedDistances (h : Heap) (id : Int) (l : List (String × Ptr)) (d : Int) :
    d ∈ sortedDistances h id l ↔ ∃ e ∈ l, entryDist h id e = d := by
  unfold sortedDistances
  rw [(List.perm_insertionSort _ _).mem_iff]
  simp

/-- With at least two registered peers and loops that visit the whole directory, the call
returns the peers at the two smallest distances, grouped by distance. -/
theorem FindClosestPeers_ok (h : Heap) (n : Network) (r : Runs) (id : Int)
    (hr : r.valid n) (h2 : 2 ≤ n.Peers.length) :
    ∃ d0 d1 rest, sortedDistances h id n.Peers = d0 :: d1 :: rest ∧
      FindClosestPeers h n r id
        = Res.ok (matching h id d0 r.first ++ matching h id d1 r.second) := by
  have hlen := sortedDistances_length h id n.Peers
  match hs : sortedDistances h id n.Peers with
  | [] => rw [hs] at hlen; simp at hlen; omega
  | [_] => rw [hs] at hlen; simp at hlen; omega
  | d0 :: d1 :: rest =>
    refine ⟨d0, d1, rest, rfl, ?_⟩
    have hscan := sortedDistances_perm h id _ _ hr.1
    rw [hs] at hscan
    unfold sortedDistances entryDist at hscan
    unfold FindClosestPeers
    simp only [hscan]
    rw [if_neg (by omega)]

theorem FindClosestPeers_panic (h : Heap) (n : Network) (r : Runs) (id : Int)
    (h2 : n.Peers.length < 2) : FindClosestPeers h n r id = Res.panic := by
  unfold FindClosestPeers
  simp only [if_pos h2]

/-- The result depends on the heap through the identifiers only. -/
theorem FindClosestPeers_congr (h h' : Heap) (n : Network) (r : Runs) (id : Int)
    (hid : ∀ x, (h' x).ID = (h x).ID) :
    FindClosestPeers h' n r id = FindClosestPeers h n r id := by
  have hm : ∀ d run, matching h' id d run = matching h id d run := by
    intro d run
    induction run with
    | nil => rfl
    | cons e rest ih => simp [matching, hid, ih]
  unfold FindClosestPeers
  simp only [hid, hm]

/-- Which peers are returned does not depend on the iteration orders. -/
theorem FindClosestPeers_mem_iff (h : Heap) (n : Network) (r r' : Runs) (id : Int)
    (hr : r.valid n) (hr' : r'.valid n) (cs cs' : List Ptr)
    (hcs : FindClosestPeers h n r id = Res.ok cs)
    (hcs' : FindClosestPeers h n r' id = Res.ok cs') (c : Ptr) :
    c ∈ cs ↔ c ∈ cs' := by
  have h2 : 2 ≤ n.Peers.length := by
    by_contra hlt
    rw [FindClosestPeers_panic h n r id (by omega)] at hcs
    cases hcs
  obtain ⟨d0, d1, rest, hs, he⟩ := FindClosestPeers_ok h n r id hr h2
  obtain ⟨e0, e1, rest', hs', he'⟩ := FindClosestPeers_ok h n r' id hr' h2
  rw [hs] at hs'
  injection hs' with h0 hs'
  injection hs' with h1 _
  subst h0 h1
  rw [he] at hcs
  rw [he'] at hcs'
  injection hcs with hcs
  injection hcs' with hcs'
  subst hcs hcs'
  simp only [List.mem_append, mem_matching]
  have p1 := fun e => (hr.2.1.trans hr'.2.1.symm).mem_iff (a := e)
  have p2 := fun e => (hr.2.2.trans hr'.2.2.symm).mem_iff (a := e)
  simp only [p1, p2]

/-- With at least two registered peers the result is never empty. -/
theorem FindClosestPeers_ne_nil (h : Heap) (n : Network) (r : Runs) (id : Int)
    (hr : r.valid n) (cs : List Ptr) (hcs : FindClosestPeers h n r id = Res.ok cs) :
    cs ≠ [] := by
  have h2 : 2 ≤ n.Peers.length := by
    by_contra hlt
    rw [FindClosestPeers_panic h n r id (by omega)] at hcs
    cases hcs
  obtain ⟨d0, d1, rest, hs, he⟩ := FindClosestPeers_ok h n r id hr h2
  rw [he] at hcs
  injection hcs with hcs
  subst hcs
  have hd0 : d0 ∈ sortedDistances h id n.Peers := by rw [hs]; exact List.mem_cons_self _ _
  obtain ⟨e, hmem, hd⟩ := (mem_sortedDistances h id n.Peers d0).1 hd0
  have : e.2 ∈ matching h id d0 r.first :=
    (mem_matching h id d0 r.first e.2).2 ⟨e, hr.2.1.symm.mem_iff.1 hmem, rfl, hd⟩
  intro hnil
  have hx : e.2 ∈ matching h id d0 r.first ++ matching h id d1 r.second :=
    List.mem_append_left _ this
  rw [hnil] at hx
  cases hx

theorem matching_unique (h : Heap) (id : Int) (run : List (String × Ptr))
    (a : String × Ptr) (hnd : (run.map (entryDist h id)).Nodup) (ha : a ∈ run) :
    matching h id (entryDist h id a) run = [a.2] := by
  induction run with
  | nil => cases ha
  | cons e rest ih =>
    rw [List.map_cons, List.nodup_cons] at hnd
    have hnone : ∀ l : List (String × Ptr), entryDist h id a ∉ l.map (entryDist h id) →
        matching h id (entryDist h id a) l = [] := by
      intro l hl
      rw [matching_eq, List.map_eq_nil_iff, List.filter_eq_nil_iff]
      intro x hx hdx
      exact hl (List.mem_map.2 ⟨x, hx, of_decide_eq_true hdx⟩)
    rcases List.mem_cons.1 ha with hae | har
    · subst hae
      obtain ⟨k, c⟩ := a
      have hd : distance (h c).ID id = entryDist h id (k, c) := rfl
      rw [matching, if_pos hd, hnone rest hnd.1]
    · obtain ⟨k, c⟩ := e
      have hne : ¬ distance (h c).ID id = entryDist h id a := by
        intro heq
        exact hnd.1 (List.mem_map.2 ⟨a, har, heq.symm⟩)
      rw [matching, if_neg hne]
      exact ih hnd.2 har

/-- When the distances of the directory entries to the target are pairwise distinct, the
call returns the entry at the smallest distance and then the entry at the second
smallest, whichever orders the loops take. -/
theorem FindClosestPeers_distinct (h : Heap) (n : Network) (r : Runs) (id : Int)
    (hr : r.valid n) (h2 : 2 ≤ n.Peers.length)
    (hnd : (n.Peers.map (entryDist h id)).Nodup) :
    ∃ a b, a ∈ n.Peers ∧ b ∈ n.Peers ∧ a ≠ b ∧
      FindClosestPeers h n r id = Res.ok [a.2, b.2] ∧
      (∀ e ∈ n.Peers, e ≠ a → entryDist h id a < entryDist h id e) ∧
      (∀ e ∈ n.Peers, e ≠ a → e ≠ b → entryDist h id b < entryDist h id e) := by
  obtain ⟨d0, d1, rest, hs, he⟩ := FindClosestPeers_ok h n r id hr h2
  have hsorted : (d0 :: d1 :: rest).Sorted (· ≤ ·) := by
    rw [← hs]; exact List.sorted_insertionSort _ _
  have hnodup : (d0 :: d1 :: rest).Nodup := by
    rw [← hs]; exact (List.perm_insertionSort _ _).nodup_iff.2 hnd
  have hmem : ∀ e ∈ n.Peers, entryDist h id e ∈ d0 :: d1 :: rest := by
    intro e hmem
    rw [← hs]
    exact (mem_sortedDistances h id n.Peers _).2 ⟨e, hmem, rfl⟩
  obtain ⟨a, ha, hda⟩ := (mem_sortedDistances h id n.Peers d0).1
    (by rw [hs]; exact List.mem_cons_self _ _)
  obtain ⟨b, hb, hdb⟩ := (mem_sortedDistances h id n.Peers d1).1
    (by rw [hs]; exact List.mem_cons_of_mem _ (List.mem_cons_self _ _))
  have hinj := List.inj_on_of_nodup_map hnd
  have h01 : d0 ≠ d1 := by
    intro h01
    exact (List.nodup_cons.1 hnodup).1 (h01 ▸ List.mem_cons_self _ _)
  have hab : a ≠ b := by
    intro hab
    exact h01 (by rw [← hda, ← hdb, hab])
  have hfirst : matching h id d0 r.first = [a.2] := by
    rw [← hda]
    exact matching_unique h id r.first a ((hr.2.1.map _).nodup_iff.2 hnd)
      (hr.2.1.mem_iff.2 ha)
  have hsecond : matching h id d1 r.second = [b.2] := by
    rw [← hdb]
    exact matching_unique h id r.second b ((hr.2.2.map _).nodup_iff.2 hnd)
      (hr.2.2.mem_iff.2 hb)
  refine ⟨a, b, ha, hb, hab, ?_, ?_, ?_⟩
  · rw [he, hfirst, hsecond]; rfl
  · intro e hepeer hea
    have hne : entryDist h id e ≠ d0 := by
      intro heq
      exact hea (hinj hepeer ha (by rw [heq, hda]))
    have hin : entryDist h id e ∈ d1 :: rest :=
      (List.mem_cons.1 (hmem e hepeer)).resolve_left hne
    have hle : d0 ≤ entryDist h id e := List.rel_of_sorted_cons hsorted _ hin
    rw [hda]
    exact lt_of_le_of_ne hle (Ne.symm hne)
  · intro e hepeer hea heb
    have hne0 : entryDist h id e ≠ d0 := by
      intro heq
      exact hea (hinj hepeer ha (by rw [heq, hda]))
    have hne1 : entryDist h id e ≠ d1 := by
      intro heq
      exact heb (hinj hepeer hb (by rw [heq, hdb]))
    have hin : entryDist h id e ∈ rest :=
      (List.mem_cons.1 ((List.mem_cons.1 (hmem e hepeer)).resolve_left hne0)).resolve_left
        hne1
    have hle : d1 ≤ entryDist h id e :=
      List.rel_of_sorted_cons (List.Sorted.of_cons hsorted) _ hin
    rw [hdb]
    exact lt_of_le_of_ne hle (Ne.symm hne1)

/-! ## SetValue and GetValue -/

theorem SetValue_mismatch (sha1 : Bytes → Bytes) (h : Heap) (r : Runs) (p : Ptr)
    (key : Bytes) (value : Slice) (n : Network) (hne : key ≠ sha1 (bytesOf value)) :
    SetValue sha1 h r p key value n = (Res.ok false, h) := by
  unfold SetValue
  simp only [if_pos hne]

theorem SetValue_held (sha1 : Bytes → Bytes) (h : Heap) (r : Runs) (p : Ptr)
    (key : Bytes) (value : Slice) (n : Network) (hkey : key = sha1 (bytesOf value))
    (hheld : (Store.lookup (h p).Data key).isSome = true) :
    SetValue sha1 h r p key value n = (Res.ok true, h) := by
  unfold SetValue
  simp only [if_neg (not_not.2 hkey), if_pos hheld]

theorem SetValue_fresh (sha1 : Bytes → Bytes) (h : Heap) (r : Runs) (p : Ptr)
    (key : Bytes) (value : Slice) (n : Network) (hkey : key = sha1 (bytesOf value))
    (hlocal : Store.lookup (h p).Data key = none) (cs : List Ptr)
    (hcs : FindClosestPeers h n r (SetBytes key) = Res.ok cs) :
    SetValue sha1 h r p key value n
      = (Res.ok true, writeData (writeAll h key value cs) p key value) := by
  unfold SetValue
  simp only [if_neg (not_not.2 hkey), hlocal, Option.isSome_none, hcs]
  rfl

theorem SetValue_panic (sha1 : Bytes → Bytes) (h : Heap) (r : Runs) (p : Ptr)
    (key : Bytes) (value : Slice) (n : Network) (hkey : key = sha1 (bytesOf value))
    (hlocal : Store.lookup (h p).Data key = none)
    (hcs : FindClosestPeers h n r (SetBytes key) = Res.panic) :
    SetValue sha1 h r p key value n = (Res.panic, h) := by
  unfold SetValue
  simp only [if_neg (not_not.2 hkey), hlocal, Option.isSome_none, hcs]
  rfl

/-- The four ways a `SetValue` call can end. -/
theorem SetValue_cases (sha1 : Bytes → Bytes) (h : Heap) (r : Runs) (p : Ptr)
    (key : Bytes) (value : Slice) (n : Network) :
    SetValue sha1 h r p key value n = (Res.ok false, h) ∨
    SetValue sha1 h r p key value n = (Res.ok true, h) ∨
    SetValue sha1 h r p key value n = (Res.panic, h) ∨
    (key = sha1 (bytesOf value) ∧ ∃ cs, FindClosestPeers h n r (SetBytes key) = Res.ok cs ∧
      SetValue sha1 h r p key value n
        = (Res.ok true, writeData (writeAll h key value cs) p key value)) := by
  by_cases hkey : key = sha1 (bytesOf value)
  · cases hl : Store.lookup (h p).Data key with
    | some w =>
      exact Or.inr (Or.inl (SetValue_held sha1 h r p key value n hkey (by rw [hl]; rfl)))
    | none =>
      cases hcs : FindClosestPeers h n r (SetBytes key) with
      | panic => exact Or.inr (Or.inr (Or.inl (SetValue_panic sha1 h r p key value n hkey hl hcs)))
      | ok cs =>
        exact Or.inr (Or.inr (Or.inr
          ⟨hkey, cs, rfl, SetValue_fresh sha1 h r p key value n hkey hl cs hcs⟩))
  · exact Or.inl (SetValue_mismatch sha1 h r p key value n hkey)

theorem SetValue_ID (sha1 : Bytes → Bytes) (h : Heap) (r : Runs) (p : Ptr)
    (key : Bytes) (value : Slice) (n : Network) (x : Ptr) :
    ((SetValue sha1 h r p key value n).2 x).ID = (h x).ID := by
  rcases SetValue_cases sha1 h r p key value n with hc | hc | hc | ⟨_, cs, _, hc⟩
  · rw [hc]
  · rw [hc]
  · rw [hc]
  · rw [hc]
    simp only [writeData_ID, writeAll_ID]

theorem SetValue_lookup_ne (sha1 : Bytes → Bytes) (h : Heap) (r : Runs) (p : Ptr)
    (key k : Bytes) (value : Slice) (n : Network) (x : Ptr) (hk : k ≠ key) :
    Store.lookup ((SetValue sha1 h r p key value n).2 x).Data k
      = Store.lookup (h x).Data k := by
  rcases SetValue_cases sha1 h r p key value n with hc | hc | hc | ⟨_, cs, _, hc⟩
  · rw [hc]
  · rw [hc]
  · rw [hc]
  · rw [hc]
    simp only [writeData_lookup_ne _ _ _ _ _ _ hk, writeAll_lookup_ne _ _ _ _ _ _ hk]

theorem SetValue_mem (sha1 : Bytes → Bytes) (h : Heap) (r : Runs) (p : Ptr)
    (key : Bytes) (value : Slice) (n : Network) (x : Ptr) (e : Bytes × Slice)
    (he : e ∈ ((SetValue sha1 h r p key value n).2 x).Data) :
    e ∈ (h x).Data ∨ (e = (key, value) ∧ key = sha1 (bytesOf value)) := by
  rcases SetValue_cases sha1 h r p key value n with hc | hc | hc | ⟨hkey, cs, _, hc⟩
  · rw [hc] at he; exact Or.inl he
  · rw [hc] at he; exact Or.inl he
  · rw [hc] at he; exact Or.inl he
  · rw [hc] at he
    rcases writeData_mem _ _ _ _ _ _ he with h1 | h1
    · rcases writeAll_mem _ _ _ _ _ _ h1 with h2 | h2
      · exact Or.inl h2
      · exact Or.inr ⟨h2, hkey⟩
    · exact Or.inr ⟨h1, hkey⟩

theorem firstValidated_of_all (sha1 : Bytes → Bytes) (h : Heap) (key : Bytes) (v : Slice)
    (cs : List Ptr) (hne : cs ≠ [])
    (hall : ∀ c ∈ cs, Store.lookup (h c).Data key = some v)
    (hkey : key = sha1 (bytesOf v)) : firstValidated sha1 h key cs = v := by
  cases cs with
  | nil => exact absurd rfl hne
  | cons c rest =>
    unfold firstValidated
    rw [hall c (List.mem_cons_self _ _)]
    simp only [if_pos hkey]

theorem firstValidated_none (sha1 : Bytes → Bytes) (h : Heap) (key : Bytes)
    (cs : List Ptr) (hall : ∀ c ∈ cs, Store.lookup (h c).Data key = none) :
    firstValidated sha1 h key cs = none := by
  induction cs with
  | nil => rfl
  | cons c rest ih =>
    unfold firstValidated
    rw [hall c (List.mem_cons_self _ _)]
    exact ih (fun c hc => hall c (List.mem_cons_of_mem _ hc))

theorem GetValue_local (sha1 : Bytes → Bytes) (h : Heap) (r : Runs) (p : Ptr)
    (key : Bytes) (n : Network) (v : Slice) (hl : Store.lookup (h p).Data key = some v) :
    GetValue sha1 h r p key n = Res.ok v := by
  unfold GetValue
  rw [hl]

theorem GetValue_remote (sha1 : Bytes → Bytes) (h : Heap) (r : Runs) (p : Ptr)
    (key : Bytes) (n : Network) (hl : Store.lookup (h p).Data key = none) (cs : List Ptr)
    (hcs : FindClosestPeers h n r (SetBytes key) = Res.ok cs) :
    GetValue sha1 h r p key n = Res.ok (firstValidated sha1 h key cs) := by
  unfold GetValue
  rw [hl]
  simp only [hcs]

theorem Runs.inOrder_valid (n : Network) : (Runs.inOrder n).valid n :=
  ⟨List.Perm.refl _, List.Perm.refl _, List.Perm.refl _⟩

/-- Set on one peer, then get from any peer, with at least two registered peers. -/
theorem set_then_get (sha1 : Bytes → Bytes) (h : Heap) (n : Network) (rs rg : Runs)
    (p q : Ptr) (v : Slice) (h2 : 2 ≤ n.Peers.length)
    (hp : Store.lookup (h p).Data (sha1 (bytesOf v)) = none)
    (hq : Store.lookup (h q).Data (sha1 (bytesOf v)) = none)
    (hrs : rs.valid n) (hrg : rg.valid n) :
    (SetValue sha1 h rs p (sha1 (bytesOf v)) v n).1 = Res.ok true ∧
    GetValue sha1 (SetValue sha1 h rs p (sha1 (bytesOf v)) v n).2 rg q
      (sha1 (bytesOf v)) n = Res.ok v := by
  obtain ⟨d0, d1, rest, _, hcs⟩ :=
    FindClosestPeers_ok h n rs (SetBytes (sha1 (bytesOf v))) hrs h2
  have hset := SetValue_fresh sha1 h rs p (sha1 (bytesOf v)) v n rfl hp _ hcs
  generalize hcsdef : matching h (SetBytes (sha1 (bytesOf v))) d0 rs.first
      ++ matching h (SetBytes (sha1 (bytesOf v))) d1 rs.second = cs at hcs hset
  rw [hset]
  refine ⟨rfl, ?_⟩
  simp only
  have hid : ∀ x, (writeData (writeAll h (sha1 (bytesOf v)) v cs) p (sha1 (bytesOf v)) v x).ID
      = (h x).ID := by
    intro x; rw [writeData_ID, writeAll_ID]
  have hwritten : ∀ x, x = p ∨ x ∈ cs →
      Store.lookup (writeData (writeAll h (sha1 (bytesOf v)) v cs) p (sha1 (bytesOf v)) v
        x).Data (sha1 (bytesOf v)) = some v := by
    intro x hx
    apply writeData_lookup_key
    rcases hx with hx | hx
    · exact Or.inl hx
    · exact Or.inr (writeAll_lookup_key _ _ _ _ _ (Or.inl hx))
  by_cases hqw : q = p ∨ q ∈ cs
  · exact GetValue_local sha1 _ rg q _ n v (hwritten q hqw)
  · have hqp : q ≠ p := fun hh => hqw (Or.inl hh)
    have hqcs : q ∉ cs := fun hh => hqw (Or.inr hh)
    have hqnone : Store.lookup (writeData (writeAll h (sha1 (bytesOf v)) v cs) p
        (sha1 (bytesOf v)) v q).Data (sha1 (bytesOf v)) = none := by
      rw [writeData_other _ _ _ _ _ hqp, writeAll_not_mem _ _ _ _ _ hqcs]
      exact hq
    obtain ⟨e0, e1, rest', _, hcs'⟩ :=
      FindClosestPeers_ok h n rg (SetBytes (sha1 (bytesOf v))) hrg h2
    have hcs'' := (FindClosestPeers_congr h _ n rg (SetBytes (sha1 (bytesOf v))) hid).trans hcs'
    rw [GetValue_remote sha1 _ rg q _ n hqnone _ hcs'']
    congr 1
    apply firstValidated_of_all
    · exact FindClosestPeers_ne_nil h n rg _ hrg _ hcs'
    · intro c hc
      exact hwritten c (Or.inr
        ((FindClosestPeers_mem_iff h n rs rg _ hrs hrg _ _ hcs hcs' c).2 hc))
    · rfl

/-- The shiyan1 call is the shiyan2 call on the hashed name. -/
theorem KadDHT_FindClosestPeers_eq (sha1 : Bytes → Bytes) (h : KadDHT.Heap) (n : Network)
    (r : Runs) (nodeID : Bytes) :
    KadDHT.FindClosestPeers sha1 h n r nodeID
      = FindClosestPeers (fun x => freshPeer (h x).ID) n r (SetBytes (sha1 nodeID)) := by
  have hm : ∀ id d run, KadDHT.matching h id d run
      = matching (fun x => freshPeer (h x).ID) id d run := by
    intro id d run
    induction run with
    | nil => rfl
    | cons e rest ih => simp [KadDHT.matching, matching, freshPeer, ih]
  unfold KadDHT.FindClosestPeers FindClosestPeers
  simp only [hm, freshPeer]

/-! ## The properties -/

/-- C1 (round trip). On a network with at least 3 registered peers whose stores are all
empty, after `p.SetValue(sha1(v), v, net)` by a registered peer `p`, the call
`q.GetValue(sha1(v), net)` by any registered peer `q` returns `v`, whatever orders the
directory is iterated in. -/
theorem C1_round_trip (sha1 : Bytes → Bytes) (h : Heap) (n : Network) (rs rg : Runs)
    (p q : Ptr) (v : Slice) (h3 : 3 ≤ n.Peers.length)
    (hempty : ∀ e ∈ n.Peers, (h e.2).Data = [])
    (hp : p ∈ n.Peers.map Prod.snd) (hq : q ∈ n.Peers.map Prod.snd)
    (hrs : rs.valid n) (hrg : rg.valid n) :
    (SetValue sha1 h rs p (sha1 (bytesOf v)) v n).1 = Res.ok true ∧
    GetValue sha1 (SetValue sha1 h rs p (sha1 (bytesOf v)) v n).2 rg q
      (sha1 (bytesOf v)) n = Res.ok v := by
  have hnone : ∀ x ∈ n.Peers.map Prod.snd,
      Store.lookup (h x).Data (sha1 (bytesOf v)) = none := by
    intro x hx
    obtain ⟨e, he, rfl⟩ := List.mem_map.1 hx
    rw [hempty e he]
    rfl
  exact set_then_get sha1 h n rs rg p q v (by omega) (hnone p hp) (hnone q hq) hrs hrg

theorem C1_round_trip_witness :
    3 ≤ net5.Peers.length ∧
    GetValue sumHash (SetValue sumHash heap5 (Runs.inOrder net5) 0 (sumHash [1, 2])
      (some [1, 2]) net5).2 (Runs.inOrder net5) 4 (sumHash [1, 2]) net5
      = Res.ok (some [1, 2]) :=
  ⟨by decide,
   (C1_round_trip sumHash heap5 net5 (Runs.inOrder net5) (Runs.inOrder net5) 0 4
      (some [1, 2]) (by decide) (fun _ _ => rfl) (by decide) (by decide)
      (Runs.inOrder_valid net5) (Runs.inOrder_valid net5)).2⟩

/-- C2 (closest-peer count). On a network with at least 2 registered peers whose XOR
distances to the target are pairwise distinct, `FindClosestPeers(target)` returns exactly
2 peers: first the peer `a` at the smallest distance, then the peer `b` at the second
smallest, whatever orders the directory map is iterated in. The first part is the call
of shiyan2/k_bucket.go, the second the call of shiyan1/kad_dht.go, whose target is the
identifier of a name. -/
theorem C2_closest_two (sha1 : Bytes → Bytes) (h : Heap) (h1 : KadDHT.Heap) (n : Network)
    (r : Runs) (id : Int) (nodeID : Bytes) (hr : r.valid n) (h2 : 2 ≤ n.Peers.length) :
    ((n.Peers.map (fun e => distance (h e.2).ID id)).Nodup →
      ∃ a b, a ∈ n.Peers ∧ b ∈ n.Peers ∧ a ≠ b ∧
        FindClosestPeers h n r id = Res.ok [a.2, b.2] ∧
        (∀ e ∈ n.Peers, e ≠ a → distance (h a.2).ID id < distance (h e.2).ID id) ∧
        (∀ e ∈ n.Peers, e ≠ a → e ≠ b →
          distance (h b.2).ID id < distance (h e.2).ID id)) ∧
    ((n.Peers.map (fun e => distance (h1 e.2).ID (SetBytes (sha1 nodeID)))).Nodup →
      ∃ a b, a ∈ n.Peers ∧ b ∈ n.Peers ∧ a ≠ b ∧
        KadDHT.FindClosestPeers sha1 h1 n r nodeID = Res.ok [a.2, b.2] ∧
        (∀ e ∈ n.Peers, e ≠ a →
          distance (h1 a.2).ID (SetBytes (sha1 nodeID))
            < distance (h1 e.2).ID (SetBytes (sha1 nodeID))) ∧
        (∀ e ∈ n.Peers, e ≠ a → e ≠ b →
          distance (h1 b.2).ID (SetBytes (sha1 nodeID))
            < distance (h1 e.2).ID (SetBytes (sha1 nodeID)))) := by
  constructor
  · exact FindClosestPeers_distinct h n r id hr h2
  · intro hnd
    rw [KadDHT_FindClosestPeers_eq]
    exact FindClosestPeers_distinct (fun x => freshPeer (h1 x).ID) n r
      (SetBytes (sha1 nodeID)) hr h2 hnd

theorem C2_closest_two_witness :
    (net5.Peers.map (fun e => distance (heap5 e.2).ID 16)).Nodup ∧
    FindClosestPeers heap5 net5 (Runs.inOrder net5) 16 = Res.ok [2, 3] ∧
    KadDHT.FindClosestPeers sumHash KadDHT.heap5 net5 (Runs.inOrder net5) [1]
      = Res.ok [0, 1] ∧
    (∃ a b, a ∈ net5.Peers ∧ b ∈ net5.Peers ∧ a ≠ b ∧
      FindClosestPeers heap5 net5 (Runs.inOrder net5) 16 = Res.ok [a.2, b.2] ∧
      (∀ e ∈ net5.Peers, e ≠ a →
        distance (heap5 a.2).ID 16 < distance (heap5 e.2).ID 16) ∧
      (∀ e ∈ net5.Peers, e ≠ a → e ≠ b →
        distance (heap5 b.2).ID 16 < distance (heap5 e.2).ID 16)) ∧
    (∃ a b, a ∈ net5.Peers ∧ b ∈ net5.Peers ∧ a ≠ b ∧
      KadDHT.FindClosestPeers sumHash KadDHT.heap5 net5 (Runs.inOrder net5) [1]
        = Res.ok [a.2, b.2] ∧
      (∀ e ∈ net5.Peers, e ≠ a →
        distance (KadDHT.heap5 a.2).ID (SetBytes (sumHash [1]))
          < distance (KadDHT.heap5 e.2).ID (SetBytes (sumHash [1]))) ∧
      (∀ e ∈ net5.Peers, e ≠ a → e ≠ b →
        distance (KadDHT.heap5 b.2).ID (SetBytes (sumHash [1]))
          < distance (KadDHT.heap5 e.2).ID (SetBytes (sumHash [1])))) :=
  ⟨by decide, by decide, by decide,
   (C2_closest_two sumHash heap5 KadDHT.heap5 net5 (Runs.inOrder net5) 16 [1]
     (Runs.inOrder_valid net5) (by decide)).1 (by decide),
   (C2_closest_two sumHash heap5 KadDHT.heap5 net5 (Runs.inOrder net5) 16 [1]
     (Runs.inOrder_valid net5) (by decide)).2 (by decide)⟩

/-- C3 (empty network). On a network with no registered peer, `FindClosestPeers` does not
return an empty sequence: for every target the slice expression `distances[:2]` exceeds
the capacity 0 of `distances` and the call panics. -/
theorem C3_empty_network_panics (h : Heap) (r : Runs) (id : Int) :
    FindClosestPeers h NewNetwork r id = Res.panic :=
  FindClosestPeers_panic h NewNetwork r id (by decide)

/-- C5 (content-address mismatch). When `key` differs from `sha1(value)`, `SetValue`
returns false and the heap is the one before the call: no store of any peer, caller or
registered, is written. -/
theorem C5_mismatch_rejected (sha1 : Bytes → Bytes) (h : Heap) (r : Runs) (p : Ptr)
    (key : Bytes) (value : Slice) (n : Network) (hne : key ≠ sha1 (bytesOf value)) :
    SetValue sha1 h r p key value n = (Res.ok false, h) :=
  SetValue_mismatch sha1 h r p key value n hne

theorem C5_mismatch_rejected_witness :
    ([7] : Bytes) ≠ sumHash (bytesOf (some [1, 2])) ∧
    SetValue sumHash heap5 (Runs.inOrder net5) 0 [7] (some [1, 2]) net5
      = (Res.ok false, heap5) :=
  ⟨by decide,
   C5_mismatch_rejected sumHash heap5 (Runs.inOrder net5) 0 [7] (some [1, 2]) net5
     (by decide)⟩

theorem SetValue_contentAddressed (sha1 : Bytes → Bytes) (h : Heap) (r : Runs) (p : Ptr)
    (key : Bytes) (value : Slice) (n : Network) (x : Ptr)
    (hx : contentAddressed sha1 (h x).Data) :
    contentAddressed sha1 ((SetValue sha1 h r p key value n).2 x).Data := by
  intro e he
  rcases SetValue_mem sha1 h r p key value n x e he with h1 | ⟨h1, hkey⟩
  · exact hx e h1
  · rw [h1]
    exact hkey.symm

theorem step_contentAddressed (sha1 : Bytes → Bytes) (n : Network) (h : Heap) (c : Call)
    (x : Ptr) (hx : contentAddressed sha1 (h x).Data) :
    contentAddressed sha1 (step sha1 n h c x).Data := by
  cases c with
  | set r p key value => exact SetValue_contentAddressed sha1 h r p key value n x hx
  | get r p key => exact hx

theorem runCalls_contentAddressed (sha1 : Bytes → Bytes) (n : Network) (h : Heap)
    (calls : List Call) (x : Ptr) (hx : contentAddressed sha1 (h x).Data) :
    contentAddressed sha1 (runCalls sha1 n h calls x).Data := by
  induction calls generalizing h with
  | nil => exact hx
  | cons c rest ih =>
    exact ih (step sha1 n h c) (step_contentAddressed sha1 n h c x hx)

theorem runCalls_lookup_unset (sha1 : Bytes → Bytes) (n : Network) (h : Heap)
    (calls : List Call) (k : Bytes) (x : Ptr)
    (hcalls : ∀ c ∈ calls, c.setsKey k = false) :
    Store.lookup (runCalls sha1 n h calls x).Data k = Store.lookup (h x).Data k := by
  induction calls generalizing h with
  | nil => rfl
  | cons c rest ih =>
    have hrest := ih (step sha1 n h c) (fun c' hc' => hcalls c' (List.mem_cons_of_mem _ hc'))
    have hc := hcalls c (List.mem_cons_self _ _)
    unfold runCalls at hrest ⊢
    rw [List.foldl_cons, hrest]
    cases c with
    | set r p key value =>
      have hk : k ≠ key := by
        intro hk
        simp [Call.setsKey, hk] at hc
      exact SetValue_lookup_ne sha1 h r p key k value n x hk
    | get r p key => rfl

theorem runCalls_ID (sha1 : Bytes → Bytes) (n : Network) (h : Heap) (calls : List Call)
    (x : Ptr) : (runCalls sha1 n h calls x).ID = (h x).ID := by
  induction calls generalizing h with
  | nil => rfl
  | cons c rest ih =>
    have hrest := ih (step sha1 n h c)
    unfold runCalls at hrest ⊢
    rw [List.foldl_cons, hrest]
    cases c with
    | set r p key value => exact SetValue_ID sha1 h r p key value n x
    | get r p key => rfl

/-- The lookup loop returns the value of the first candidate that holds a value hashing
to the key, and nil when there is no such candidate. -/
theorem firstValidated_find (sha1 : Bytes → Bytes) (h : Heap) (key : Bytes)
    (cs : List Ptr) :
    (∀ c, cs.find? (holdsValidated sha1 h key) = some c →
      Store.lookup (h c).Data key = some (firstValidated sha1 h key cs) ∧
      sha1 (bytesOf (firstValidated sha1 h key cs)) = key) ∧
    (cs.find? (holdsValidated sha1 h key) = none → firstValidated sha1 h key cs = none) := by
  induction cs with
  | nil => exact ⟨fun c hc => (by cases hc), fun _ => rfl⟩
  | cons c0 rest ih =>
    cases hl : Store.lookup (h c0).Data key with
    | none =>
      have hv : holdsValidated sha1 h key c0 = false := by simp [holdsValidated, hl]
      have hf : firstValidated sha1 h key (c0 :: rest) = firstValidated sha1 h key rest := by
        rw [firstValidated, hl]
      rw [List.find?_cons, hv, hf]
      exact ih
    | some w =>
      by_cases hw : key = sha1 (bytesOf w)
      · have hv : holdsValidated sha1 h key c0 = true := by
          rw [holdsValidated, hl]
          exact decide_eq_true hw
        have hf : firstValidated sha1 h key (c0 :: rest) = w := by
          rw [firstValidated, hl]
          simp only [if_pos hw]
        rw [List.find?_cons, hv, hf]
        refine ⟨?_, fun hc => (by cases hc)⟩
        intro c hc
        injection hc with hc
        subst hc
        exact ⟨hl, hw.symm⟩
      · have hv : holdsValidated sha1 h key c0 = false := by
          rw [holdsValidated, hl]
          exact decide_eq_false hw
        have hf : firstValidated sha1 h key (c0 :: rest)
            = firstValidated sha1 h key rest := by
          rw [firstValidated, hl]
          simp only [if_neg hw]
        rw [List.find?_cons, hv, hf]
        exact ih

/-- C6 (content-address invariant). If every entry of the caller's store and of every
registered peer's store is filed under the hash of its value, the same holds after a
`SetValue` call with any arguments; and starting from empty stores it holds in every
store after any sequence of `SetValue` and `GetValue` calls. -/
theorem C6_content_address_invariant (sha1 : Bytes → Bytes) (h : Heap) (r : Runs)
    (p : Ptr) (key : Bytes) (value : Slice) (n : Network) (calls : List Call) :
    ((∀ x, x = p ∨ x ∈ n.Peers.map Prod.snd → contentAddressed sha1 (h x).Data) →
      ∀ x, x = p ∨ x ∈ n.Peers.map Prod.snd →
        contentAddressed sha1 ((SetValue sha1 h r p key value n).2 x).Data) ∧
    ((∀ x, (h x).Data = []) →
      ∀ x, contentAddressed sha1 (runCalls sha1 n h calls x).Data) := by
  constructor
  · intro hinv x hx
    exact SetValue_contentAddressed sha1 h r p key value n x (hinv x hx)
  · intro hempty x
    apply runCalls_contentAddressed
    rw [hempty x]
    intro e he
    cases he

theorem C6_content_address_invariant_witness :
    (∀ x, (heap5 x).Data = []) ∧
    contentAddressed sumHash
      (runCalls sumHash net5 heap5
        [Call.set (Runs.inOrder net5) 0 (sumHash [1, 2]) (some [1, 2]),
         Call.set (Runs.inOrder net5) 1 [7] (some [3]),
         Call.get (Runs.inOrder net5) 2 (sumHash [1, 2])] 0).Data :=
  ⟨fun _ => rfl,
   (C6_content_address_invariant sumHash heap5 (Runs.inOrder net5) 0 [7] (some [3]) net5
      [Call.set (Runs.inOrder net5) 0 (sumHash [1, 2]) (some [1, 2]),
       Call.set (Runs.inOrder net5) 1 [7] (some [3]),
       Call.get (Runs.inOrder net5) 2 (sumHash [1, 2])]).2 (fun _ => rfl) 0⟩

/-- C7 (SetValue success). On a network with at least 2 registered peers, when the
caller does not hold `key` and `sha1(value) = key`, `SetValue` returns true and
afterwards the caller's store and the store of every peer that `FindClosestPeers(key)`
returns (under any iteration order, before or after the call) map `key` to `value`,
whatever they held before. -/
theorem C7_set_success (sha1 : Bytes → Bytes) (h : Heap) (r r' : Runs) (p : Ptr)
    (key : Bytes) (value : Slice) (n : Network) (h2 : 2 ≤ n.Peers.length)
    (hr : r.valid n) (hr' : r'.valid n)
    (hlocal : Store.lookup (h p).Data key = none) (hkey : sha1 (bytesOf value) = key) :
    (SetValue sha1 h r p key value n).1 = Res.ok true ∧
    Store.lookup ((SetValue sha1 h r p key value n).2 p).Data key = some value ∧
    ∃ cs, FindClosestPeers h n r' (SetBytes key) = Res.ok cs ∧
      FindClosestPeers (SetValue sha1 h r p key value n).2 n r' (SetBytes key)
        = Res.ok cs ∧
      ∀ c ∈ cs, Store.lookup ((SetValue sha1 h r p key value n).2 c).Data key
        = some value := by
  obtain ⟨d0, d1, rest, _, hcs⟩ := FindClosestPeers_ok h n r (SetBytes key) hr h2
  obtain ⟨e0, e1, rest', _, hcs'⟩ := FindClosestPeers_ok h n r' (SetBytes key) hr' h2
  have hpost := FindClosestPeers_congr h (SetValue sha1 h r p key value n).2 n r'
    (SetBytes key) (SetValue_ID sha1 h r p key value n)
  rw [SetValue_fresh sha1 h r p key value n hkey.symm hlocal _ hcs] at hpost ⊢
  refine ⟨rfl, writeData_lookup_key _ _ _ _ _ (Or.inl rfl), _, hcs', hpost.trans hcs', ?_⟩
  intro c hc
  apply writeData_lookup_key
  exact Or.inr (writeAll_lookup_key _ _ _ _ _ (Or.inl
    ((FindClosestPeers_mem_iff h n r r' _ hr hr' _ _ hcs hcs' c).2 hc)))

theorem C7_set_success_witness :
    Store.lookup (heapStale 4).Data (sumHash [1]) = none ∧
    ∃ cs, FindClosestPeers heapStale net5 (Runs.inOrder net5) (SetBytes (sumHash [1]))
        = Res.ok cs ∧
      FindClosestPeers (SetValue sumHash heapStale (Runs.inOrder net5) 4 (sumHash [1])
        (some [1]) net5).2 net5 (Runs.inOrder net5) (SetBytes (sumHash [1])) = Res.ok cs ∧
      ∀ c ∈ cs, Store.lookup ((SetValue sumHash heapStale (Runs.inOrder net5) 4
        (sumHash [1]) (some [1]) net5).2 c).Data (sumHash [1]) = some (some [1]) :=
  ⟨by decide,
   (C7_set_success sumHash heapStale (Runs.inOrder net5) (Runs.inOrder net5) 4
      (sumHash [1]) (some [1]) net5 (by decide) (Runs.inOrder_valid net5)
      (Runs.inOrder_valid net5) (by decide) rfl).2.2⟩

/-- C8 (SetValue on a held key). On any network, empty ones included, when
`sha1(value) = key` and the caller already holds `key`, `SetValue` returns true and the
heap is the one before the call: nothing is replicated and the held value stays. -/
theorem C8_held_key_unchanged (sha1 : Bytes → Bytes) (h : Heap) (r : Runs) (p : Ptr)
    (key : Bytes) (value : Slice) (n : Network) (hkey : sha1 (bytesOf value) = key)
    (hheld : ∃ w, Store.lookup (h p).Data key = some w) :
    SetValue sha1 h r p key value n = (Res.ok true, h) := by
  obtain ⟨w, hw⟩ := hheld
  exact SetValue_held sha1 h r p key value n hkey.symm (by rw [hw]; rfl)

theorem C8_held_key_unchanged_witness :
    Store.lookup (heapStale 0).Data (sumHash [1]) = some (some [9]) ∧
    SetValue sumHash heapStale (Runs.inOrder NewNetwork) 0 (sumHash [1]) (some [1])
      NewNetwork = (Res.ok true, heapStale) :=
  ⟨by decide,
   C8_held_key_unchanged sumHash heapStale (Runs.inOrder NewNetwork) 0 (sumHash [1])
     (some [1]) NewNetwork rfl ⟨some [9], by decide⟩⟩

/-- C9 (absent lookup). On a network with at least 2 registered peers whose stores start
empty, after any sequence of calls in which no `SetValue` is made with key `k`,
`GetValue(k, net)` from any peer whose store started empty (every registered peer is
one) returns nil. -/
theorem C9_absent_lookup (sha1 : Bytes → Bytes) (h : Heap) (n : Network)
    (calls : List Call) (r : Runs) (q : Ptr) (k : Bytes) (h2 : 2 ≤ n.Peers.length)
    (hempty : ∀ e ∈ n.Peers, (h e.2).Data = []) (hq : (h q).Data = [])
    (hcalls : ∀ c ∈ calls, c.setsKey k = false) (hr : r.valid n) :
    GetValue sha1 (runCalls sha1 n h calls) r q k n = Res.ok none := by
  have hlook : ∀ x, (h x).Data = [] →
      Store.lookup (runCalls sha1 n h calls x).Data k = none := by
    intro x hx
    rw [runCalls_lookup_unset sha1 n h calls k x hcalls, hx]
    rfl
  obtain ⟨d0, d1, rest, _, hcs⟩ :=
    FindClosestPeers_ok (runCalls sha1 n h calls) n r (SetBytes k) hr h2
  rw [GetValue_remote sha1 _ r q k n (hlook q hq) _ hcs]
  congr 1
  apply firstValidated_none
  intro c hc
  rcases List.mem_append.1 hc with hc | hc
  · obtain ⟨e, he, hec, _⟩ := (mem_matching _ _ _ _ _).1 hc
    rw [← hec]
    exact hlook e.2 (hempty e (hr.2.1.mem_iff.1 he))
  · obtain ⟨e, he, hec, _⟩ := (mem_matching _ _ _ _ _).1 hc
    rw [← hec]
    exact hlook e.2 (hempty e (hr.2.2.mem_iff.1 he))

theorem C9_absent_lookup_witness :
    2 ≤ net5.Peers.length ∧
    GetValue sumHash
      (runCalls sumHash net5 heap5
        [Call.set (Runs.inOrder net5) 0 (sumHash [1, 2]) (some [1, 2]),
         Call.set (Runs.inOrder net5) 3 (sumHash [5]) (some [5])])
      (Runs.inOrder net5) 2 (sumHash [1]) net5 = Res.ok none :=
  ⟨by decide,
   C9_absent_lookup sumHash heap5 net5
     [Call.set (Runs.inOrder net5) 0 (sumHash [1, 2]) (some [1, 2]),
      Call.set (Runs.inOrder net5) 3 (sumHash [5]) (some [5])]
     (Runs.inOrder net5) 2 (sumHash [1]) (by decide) (fun _ _ => rfl) rfl (by decide)
     (Runs.inOrder_valid net5)⟩

/-- C10 (validated remote retrieval). On a network with at least 2 registered peers and
arbitrary store contents, when the caller does not hold `key`, `GetValue` returns a
result `v`; if `v` is not nil then `sha1(v) = key` and `v` is the value held under `key`
by the first peer, in the order `FindClosestPeers(key)` returned them, whose held value
hashes to `key`; if no returned peer holds such a value, `v` is nil. -/
theorem C10_validated_remote (sha1 : Bytes → Bytes) (h : Heap) (n : Network) (r : Runs)
    (p : Ptr) (key : Bytes) (h2 : 2 ≤ n.Peers.length) (hr : r.valid n)
    (hlocal : Store.lookup (h p).Data key = none) :
    ∃ cs v, FindClosestPeers h n r (SetBytes key) = Res.ok cs ∧
      GetValue sha1 h r p key n = Res.ok v ∧
      (v ≠ none → sha1 (bytesOf v) = key ∧
        ∃ c, cs.find? (holdsValidated sha1 h key) = some c ∧
          Store.lookup (h c).Data key = some v) ∧
      (cs.find? (holdsValidated sha1 h key) = none → v = none) := by
  obtain ⟨d0, d1, rest, _, hcs⟩ := FindClosestPeers_ok h n r (SetBytes key) hr h2
  refine ⟨_, _, hcs, GetValue_remote sha1 h r p key n hlocal _ hcs, ?_, ?_⟩
  · intro hv
    generalize matching h (SetBytes key) d0 r.first
      ++ matching h (SetBytes key) d1 r.second = cs at hv ⊢
    have hspec := firstValidated_find sha1 h key cs
    cases hf : cs.find? (holdsValidated sha1 h key) with
    | none => exact absurd (hspec.2 hf) hv
    | some c => exact ⟨(hspec.1 c hf).2, c, rfl, (hspec.1 c hf).1⟩
  · exact (firstValidated_find sha1 h key _).2

theorem C10_validated_remote_witness :
    Store.lookup (heapStale 4).Data (sumHash [1]) = none ∧
    GetValue sumHash heapStale (Runs.inOrder net5) 4 (sumHash [1]) net5
      = Res.ok (some [1]) ∧
    ∃ cs v, FindClosestPeers heapStale net5 (Runs.inOrder net5) (SetBytes (sumHash [1]))
        = Res.ok cs ∧
      GetValue sumHash heapStale (Runs.inOrder net5) 4 (sumHash [1]) net5 = Res.ok v ∧
      (v ≠ none → sumHash (bytesOf v) = sumHash [1] ∧
        ∃ c, cs.find? (holdsValidated sumHash heapStale (sumHash [1])) = some c ∧
          Store.lookup (heapStale c).Data (sumHash [1]) = some v) ∧
      (cs.find? (holdsValidated sumHash heapStale (sumHash [1])) = none → v = none) :=
  ⟨by decide, by decide,
   C10_validated_remote sumHash heapStale net5 (Runs.inOrder net5) 4 (sumHash [1])
     (by decide) (Runs.inOrder_valid net5) (by decide)⟩

/-! ## Directories built with AddPeer -/

theorem distance_cancel (a t : Int) : distance (distance a t) t = a := by
  cases a <;> cases t <;> simp [distance, Int.xor, Nat.xor_cancel_right]

theorem distance_left_injective (t : Int) : Function.Injective (fun a => distance a t) := by
  intro a b hab
  have := congrArg (fun d => distance d t) hab
  simpa [distance_cancel] using this

theorem putPeer_mem (l : List (String × Ptr)) (k : String) (p : Ptr) (e : String × Ptr)
    (he : e ∈ putPeer l k p) : e ∈ l ∨ e = (k, p) := by
  induction l with
  | nil => simpa [putPeer] using he
  | cons e1 rest ih =>
    obtain ⟨k1, p1⟩ := e1
    by_cases hk : k1 = k
    · simp only [putPeer, hk, if_true, List.mem_cons] at he
      rcases he with he | he
      · exact Or.inr he
      · exact Or.inl (List.mem_cons_of_mem _ he)
    · simp only [putPeer, hk, if_false, List.mem_cons] at he
      rcases he with he | he
      · exact Or.inl (he ▸ List.mem_cons_self _ _)
      · rcases ih he with h1 | h1
        · exact Or.inl (List.mem_cons_of_mem _ h1)
        · exact Or.inr h1

theorem putPeer_keys (l : List (String × Ptr)) (k : String) (p : Ptr) :
    (putPeer l k p).map Prod.fst
      = if k ∈ l.map Prod.fst then l.map Prod.fst else l.map Prod.fst ++ [k] := by
  induction l with
  | nil => simp [putPeer]
  | cons e1 rest ih =>
    obtain ⟨k1, p1⟩ := e1
    by_cases hk : k1 = k
    · subst hk
      simp [putPeer]
    · have hk' : ¬ k = k1 := fun hh => hk hh.symm
      by_cases hin : k ∈ rest.map Prod.fst
      · simp only [putPeer, hk, if_false, List.map_cons, ih, if_pos hin, List.mem_cons,
          hk', false_or]
      · simp only [putPeer, hk, if_false, List.map_cons, ih, if_neg hin, List.mem_cons,
          hk', false_or, List.cons_append]

theorem putPeer_keyedByID (h : Heap) (l : List (String × Ptr)) (p : Ptr)
    (hl : keyedByID h l) : keyedByID h (putPeer l (bigString (h p).ID) p) := by
  constructor
  · rw [putPeer_keys]
    by_cases hin : bigString (h p).ID ∈ l.map Prod.fst
    · rw [if_pos hin]; exact hl.1
    · rw [if_neg hin]
      exact List.Nodup.append hl.1 (List.nodup_singleton _)
        (by simpa [List.disjoint_singleton] using hin)
  · intro e he
    rcases putPeer_mem l _ p e he with h1 | h1
    · exact hl.2 e h1
    · rw [h1]

theorem registerAll_keyedByID (h : Heap) (ps : List Ptr) :
    keyedByID h (registerAll h ps).Peers := by
  have hgen : ∀ (n : Network), keyedByID h n.Peers →
      keyedByID h (ps.foldl (AddPeer h) n).Peers := by
    induction ps with
    | nil => intro n hn; exact hn
    | cons p rest ih =>
      intro n hn
      exact ih (AddPeer h n p) (putPeer_keyedByID h n.Peers p hn)
  exact hgen NewNetwork ⟨List.nodup_nil, fun e he => by cases he⟩

/-- In a directory keyed by identifier no two entries are at the same distance from a
target. -/
theorem keyedByID_distinct (h : Heap) (l : List (String × Ptr)) (id : Int)
    (hl : keyedByID h l) : (l.map (entryDist h id)).Nodup := by
  have hkeys : l.map Prod.fst = (l.map (fun e => (h e.2).ID)).map bigString := by
    rw [List.map_map]
    exact List.map_congr_left (fun e he => hl.2 e he)
  have hids : (l.map (fun e => (h e.2).ID)).Nodup := by
    have := hl.1
    rw [hkeys] at this
    exact List.Nodup.of_map _ this
  have := List.Nodup.map (distance_left_injective id) hids
  rw [List.map_map] at this
  exact this

/-- On a network built with `AddPeer` the call never returns more than two peers. -/
theorem registerAll_at_most_two (h : Heap) (ps : List Ptr) (r : Runs) (id : Int)
    (cs : List Ptr) (hr : r.valid (registerAll h ps))
    (hcs : FindClosestPeers h (registerAll h ps) r id = Res.ok cs) : cs.length = 2 := by
  have h2 : 2 ≤ (registerAll h ps).Peers.length := by
    by_contra hlt
    rw [FindClosestPeers_panic h _ r id (by omega)] at hcs
    cases hcs
  obtain ⟨a, b, _, _, _, hab, _⟩ := FindClosestPeers_distinct h _ r id hr h2
    (keyedByID_distinct h _ id (registerAll_keyedByID h ps))
  rw [hab] at hcs
  injection hcs with hcs
  rw [← hcs]
  rfl

/-- C4, as stated, fails: on no network built from `NewNetwork()` with `AddPeer`, for no
target and no iteration order, does `FindClosestPeers` return more than 2 peers. -/
theorem C4_no_over_return_after_AddPeer :
    ¬ ∃ (h : Heap) (ps : List Ptr) (r : Runs) (id : Int) (cs : List Ptr),
      r.valid (registerAll h ps) ∧
      FindClosestPeers h (registerAll h ps) r id = Res.ok cs ∧ 2 < cs.length := by
  rintro ⟨h, ps, r, id, cs, hr, hcs, hlen⟩
  have := registerAll_at_most_two h ps r id cs hr hcs
  omega

/-- C4, amended (tie over-return). The directory `netTie` holds two peers with the same
identifier under different keys, so no sequence of `AddPeer` calls builds it; for the
target 0 its two entries at the second-smallest distance 2 tie, and `FindClosestPeers`
returns 3 peers, more than 2. -/
theorem C4_tie_over_return :
    (∀ ps, registerAll heapTie ps ≠ netTie) ∧
    sortedDistances heapTie 0 netTie.Peers = [1, 2, 2] ∧
    entryDist heapTie 0 ("2", 1) = 2 ∧ entryDist heapTie 0 ("02", 2) = 2 ∧
    FindClosestPeers heapTie netTie (Runs.inOrder netTie) 0 = Res.ok [0, 1, 2] := by
  refine ⟨?_, by decide, by decide, by decide, by decide⟩
  intro ps hps
  have hnd := keyedByID_distinct heapTie _ 0 (registerAll_keyedByID heapTie ps)
  rw [hps] at hnd
  revert hnd
  decide

/-! ## Buckets -/

theorem Bucket.any_iff (b : Bucket) (id : Int) :
    b.Nodes.any (fun node => decide (node.ID = id)) = true ↔ id ∈ b.ids := by
  simp only [List.any_eq_true, decide_eq_true_eq, Bucket.ids, List.mem_map]

theorem Bucket.Insert_present (b : Bucket) (n : Node) (hn : n.ID ∈ b.ids) :
    b.Insert n = b := by
  unfold Bucket.Insert
  rw [if_pos ((Bucket.any_iff b n.ID).2 hn)]

theorem Bucket.Insert_room (b : Bucket) (n : Node) (hn : n.ID ∉ b.ids)
    (hlen : b.Nodes.length < K) : b.Insert n = { Nodes := b.Nodes ++ [n] } := by
  unfold Bucket.Insert
  rw [if_neg (fun hh => hn ((Bucket.any_iff b n.ID).1 hh)), if_pos hlen]

theorem Bucket.Insert_full (b : Bucket) (n : Node) (hn : n.ID ∉ b.ids)
    (hlen : ¬ b.Nodes.length < K) : b.Insert n = { Nodes := b.Nodes.drop 1 ++ [n] } := by
  unfold Bucket.Insert
  rw [if_neg (fun hh => hn ((Bucket.any_iff b n.ID).1 hh)), if_neg hlen]

theorem Bucket.Insert_mem (b : Bucket) (n : Node) : n.ID ∈ (b.Insert n).ids := by
  by_cases hn : n.ID ∈ b.ids
  · rw [Bucket.Insert_present b n hn]; exact hn
  · by_cases hlen : b.Nodes.length < K
    · rw [Bucket.Insert_room b n hn hlen]
      simp [Bucket.ids]
    · rw [Bucket.Insert_full b n hn hlen]
      simp [Bucket.ids]

theorem Bucket.Insert_bounded (b : Bucket) (n : Node)
    (hb : b.Nodes.length ≤ K ∧ b.ids.Nodup) :
    (b.Insert n).Nodes.length ≤ K ∧ (b.Insert n).ids.Nodup := by
  by_cases hn : n.ID ∈ b.ids
  · rw [Bucket.Insert_present b n hn]; exact hb
  · by_cases hlen : b.Nodes.length < K
    · rw [Bucket.Insert_room b n hn hlen]
      constructor
      · simp only [List.length_append, List.length_singleton]; omega
      · simp only [Bucket.ids, List.map_append, List.map_cons, List.map_nil]
        exact List.Nodup.append hb.2 (List.nodup_singleton _)
          (by simpa [List.disjoint_singleton, Bucket.ids] using hn)
    · rw [Bucket.Insert_full b n hn hlen]
      have hK : K = 3 := rfl
      constructor
      · simp only [List.length_append, List.length_singleton, List.length_drop]; omega
      · have hsub : List.Sublist ((b.Nodes.drop 1).map Node.ID) b.ids :=
          (List.drop_sublist 1 b.Nodes).map Node.ID
        have hnot : n.ID ∉ (b.Nodes.drop 1).map Node.ID := fun hh => hn (hsub.subset hh)
        simp only [Bucket.ids, List.map_append, List.map_cons, List.map_nil]
        exact List.Nodup.append (hb.2.sublist hsub) (List.nodup_singleton _)
          (by simpa [List.disjoint_singleton] using hnot)

theorem insertAll_snoc (b : Bucket) (ids : List Int) (x : Int) :
    insertAll b (ids ++ [x]) = (insertAll b ids).Insert { ID := x } := by
  simp [insertAll, List.foldl_append]

theorem insertAll_bounded (b : Bucket) (ids : List Int)
    (hb : b.Nodes.length ≤ K ∧ b.ids.Nodup) :
    (insertAll b ids).Nodes.length ≤ K ∧ (insertAll b ids).ids.Nodup := by
  induction ids generalizing b with
  | nil => exact hb
  | cons x rest ih => exact ih (b.Insert { ID := x }) (Bucket.Insert_bounded b _ hb)

/-- Distinct identifiers inserted into an empty bucket leave the last `K` of them. -/
theorem insertAll_fifo (ids : List Int) (hnd : ids.Nodup) :
    (insertAll NewBucket ids).ids = ids.drop (ids.length - K) := by
  induction ids using List.reverseRecOn with
  | nil => rfl
  | append_singleton ids x ih =>
    have hK : K = 3 := rfl
    rw [List.nodup_append] at hnd
    obtain ⟨hids, _, hdisj⟩ := hnd
    have hx : x ∉ ids := fun hh => hdisj hh (List.mem_singleton_self x)
    have hcur := ih hids
    have hxcur : (Node.mk x).ID ∉ (insertAll NewBucket ids).ids := by
      rw [hcur]
      exact fun hh => hx (List.mem_of_mem_drop hh)
    have hlen : (insertAll NewBucket ids).Nodes.length = ids.length - (ids.length - K) := by
      have := congrArg List.length hcur
      simpa [Bucket.ids] using this
    rw [insertAll_snoc]
    by_cases hroom : (insertAll NewBucket ids).Nodes.length < K
    · rw [Bucket.Insert_room _ _ hxcur hroom]
      have h0 : ids.length - K = 0 := by omega
      have h1 : (ids ++ [x]).length - K = 0 := by
        simp only [List.length_append, List.length_singleton]; omega
      rw [h0, List.drop_zero] at hcur
      rw [h1, List.drop_zero]
      simp only [Bucket.ids, List.map_append, List.map_cons, List.map_nil] at hcur ⊢
      rw [hcur]
    · rw [Bucket.Insert_full _ _ hxcur hroom]
      have hge : K ≤ ids.length := by omega
      have h1 : (ids ++ [x]).length - K = (ids.length - K) + 1 := by
        simp only [List.length_append, List.length_singleton]; omega
      rw [h1]
      simp only [Bucket.ids, List.map_append, List.map_cons, List.map_nil, List.map_drop]
        at hcur ⊢
      rw [hcur, List.drop_drop, List.drop_append_of_le_length (by omega)]

/-- C12 (bucket capacity invariant). Starting from `NewBucket()`, after `Insert` calls
with any identifiers, repeats allowed, the bucket holds at most `K = 3` entries and no
two of them have the same identifier. -/
theorem C12_bucket_capacity (ids : List Int) :
    (insertAll NewBucket ids).Nodes.length ≤ 3 ∧
    ((insertAll NewBucket ids).Nodes.map Node.ID).Nodup :=
  insertAll_bounded NewBucket ids ⟨by decide, List.nodup_nil⟩

/-- C13 (FIFO eviction). After `n` pairwise distinct identifiers are inserted one by one
into an empty bucket, the bucket holds exactly the last `min(n, K)` of them in insertion
order, oldest first; 5 distinct insertions leave the 3rd, 4th and 5th. -/
theorem C13_fifo_eviction (ids : List Int) (hnd : ids.Nodup) :
    (insertAll NewBucket ids).Nodes.map Node.ID = ids.drop (ids.length - min ids.length K) ∧
    ((insertAll NewBucket ids).Nodes.map Node.ID).length = min ids.length K ∧
    (ids.length = 5 →
      (insertAll NewBucket ids).Nodes.map Node.ID = [ids.getD 2 0, ids.getD 3 0, ids.getD 4 0]) := by
  have hK : K = 3 := rfl
  have hmain := insertAll_fifo ids hnd
  unfold Bucket.ids at hmain
  have hdrop : ids.length - min ids.length K = ids.length - K := by omega
  refine ⟨by rw [hdrop]; exact hmain, ?_, ?_⟩
  · rw [hmain, List.length_drop]; omega
  · intro h5
    rw [hmain]
    match ids, h5 with
    | [a, b, c, d, e], _ => rfl

theorem C13_fifo_eviction_witness :
    ([10, 20, 30, 40, 50] : List Int).Nodup ∧
    (insertAll NewBucket [10, 20, 30, 40, 50]).Nodes.map Node.ID = [30, 40, 50] :=
  ⟨by decide,
   (C13_fifo_eviction [10, 20, 30, 40, 50] (by decide)).2.2 rfl⟩

/-- C14 (dedup on insert). `Insert` of an identifier already in the bucket leaves the
bucket exactly as it was, and for every bucket `Insert(x)` twice is `Insert(x)` once. -/
theorem C14_insert_dedup (b : Bucket) (n : Node) :
    (n.ID ∈ b.Nodes.map Node.ID → b.Insert n = b) ∧
    (b.Insert n).Insert n = b.Insert n :=
  ⟨fun hn => Bucket.Insert_present b n hn,
   Bucket.Insert_present (b.Insert n) n (Bucket.Insert_mem b n)⟩

theorem C14_insert_dedup_witness :
    (20 : Int) ∈ (Bucket.mk [⟨10⟩, ⟨20⟩, ⟨30⟩]).Nodes.map Node.ID ∧
    (Bucket.mk [⟨10⟩, ⟨20⟩, ⟨30⟩]).Insert ⟨20⟩ = Bucket.mk [⟨10⟩, ⟨20⟩, ⟨30⟩] :=
  ⟨by decide, (C14_insert_dedup (Bucket.mk [⟨10⟩, ⟨20⟩, ⟨30⟩]) ⟨20⟩).1 (by decide)⟩

/-! ## The hash on test vectors -/

set_option maxRecDepth 100000 in
theorem SHA1_empty :
    SHA1 [] = [0xda, 0x39, 0xa3, 0xee, 0x5e, 0x6b, 0x4b, 0x0d, 0x32, 0x55,
      0xbf, 0xef, 0x95, 0x60, 0x18, 0x90, 0xaf, 0xd8, 0x07, 0x09] := by
  decide

set_option maxRecDepth 100000 in
theorem SHA1_abc :
    SHA1 [0x61, 0x62, 0x63] = [0xa9, 0x99, 0x3e, 0x36, 0x47, 0x06, 0x81, 0x6a, 0xba, 0x3e,
      0x25, 0x71, 0x78, 0x50, 0xc2, 0x6c, 0x9c, 0xd0, 0xd8, 0x9d] := by
  decide

/-! ## The XOR distance -/

theorem distance_comm (a b : Int) : distance a b = distance b a := by
  cases a <;> cases b <;> simp [distance, Int.xor, Nat.xor_comm]

theorem distance_self (a : Int) : distance a a = 0 := by
  cases a <;> simp [distance, Int.xor]

theorem distance_zero_left (a : Int) : distance 0 a = a := by
  cases a <;> simp [distance, Int.xor]

theorem distance_ofNat (m n : Nat) : distance (m : Int) (n : Int) = ((m ^^^ n : Nat) : Int) :=
  rfl

theorem nat_xor_le_add (a b : Nat) : a ^^^ b ≤ a + b := by
  have hgen : ∀ n a b : Nat, a + b = n → a ^^^ b ≤ a + b := by
    intro n
    induction n using Nat.strong_induction_on with
    | _ n ih =>
      intro a b hn
      by_cases h0 : n = 0
      · have ha : a = 0 := by omega
        have hb : b = 0 := by omega
        subst ha hb
        simp
      · have ih' := ih (a / 2 + b / 2) (by omega) (a / 2) (b / 2) rfl
        have hd := Nat.xor_div_two (a := a) (b := b)
        have hm := Nat.xor_mod_two_eq (m := a) (n := b)
        omega
  exact hgen (a + b) a b rfl

/-- C16 (triangle inequality). For non-negative identifiers `a`, `b`, `c`,
`distance(a, c) ≤ distance(a, b) + distance(b, c)`. -/
theorem C16_triangle (a b c : Int) (ha : 0 ≤ a) (hb : 0 ≤ b) (hc : 0 ≤ c) :
    distance a c ≤ distance a b + distance b c := by
  obtain ⟨m, rfl⟩ := Int.eq_ofNat_of_zero_le ha
  obtain ⟨n, rfl⟩ := Int.eq_ofNat_of_zero_le hb
  obtain ⟨k, rfl⟩ := Int.eq_ofNat_of_zero_le hc
  rw [distance_ofNat, distance_ofNat, distance_ofNat]
  have hx : m ^^^ k = (m ^^^ n) ^^^ (n ^^^ k) := by
    rw [Nat.xor_assoc, ← Nat.xor_assoc n n k, Nat.xor_self, Nat.zero_xor]
  have := nat_xor_le_add (m ^^^ n) (n ^^^ k)
  rw [← hx] at this
  exact_mod_cast this

theorem C16_triangle_witness :
    (0 : Int) ≤ 5 ∧ (0 : Int) ≤ 3 ∧ (0 : Int) ≤ 6 ∧
    distance 5 6 ≤ distance 5 3 + distance 3 6 :=
  ⟨by decide, by decide, by decide,
   C16_triangle 5 3 6 (by decide) (by decide) (by decide)⟩

/-- C17 (distance symmetry and identity). For all identifiers `a` and `b`, negative ones
included, `distance(a, b) = distance(b, a)`, `distance(a, a) = 0`, and
`distance(a, b) = 0` only when `a = b`. -/
theorem C17_distance_symmetry (a b : Int) :
    distance a b = distance b a ∧ distance a a = 0 ∧ (distance a b = 0 → a = b) := by
  refine ⟨distance_comm a b, distance_self a, ?_⟩
  intro h0
  have := distance_cancel a b
  rw [h0, distance_zero_left] at this
  exact this.symm

theorem C17_distance_symmetry_witness :
    distance (-7) (-7) = 0 ∧ distance (-7) 12 = distance 12 (-7) ∧ ((-7 : Int) = -7) :=
  ⟨by decide, (C17_distance_symmetry (-7) 12).1,
   (C17_distance_symmetry (-7) (-7)).2.2 (by decide)⟩

/-- C18 (no ties among registered peers). In a network built from `NewNetwork()` by
`AddPeer` calls, two distinct directory entries are never at the same XOR distance from a
target, and with at least 2 registered peers `FindClosestPeers` returns exactly 2 peers,
different from each other and both registered, whatever orders the loops take. -/
theorem C18_no_ties (h : Heap) (ps : List Ptr) (r : Runs) (id : Int)
    (hr : r.valid (registerAll h ps)) :
    (∀ a ∈ (registerAll h ps).Peers, ∀ b ∈ (registerAll h ps).Peers, a ≠ b →
      distance (h a.2).ID id ≠ distance (h b.2).ID id) ∧
    (2 ≤ (registerAll h ps).Peers.length →
      ∃ p q, p ≠ q ∧ p ∈ (registerAll h ps).Peers.map Prod.snd ∧
        q ∈ (registerAll h ps).Peers.map Prod.snd ∧
        FindClosestPeers h (registerAll h ps) r id = Res.ok [p, q]) := by
  have hnd := keyedByID_distinct h _ id (registerAll_keyedByID h ps)
  constructor
  · intro a ha b hb hab heq
    exact hab (List.inj_on_of_nodup_map hnd ha hb heq)
  · intro h2
    obtain ⟨a, b, ha, hb, hab, hres, hmin, _⟩ :=
      FindClosestPeers_distinct h _ r id hr h2 hnd
    refine ⟨a.2, b.2, ?_, List.mem_map.2 ⟨a, ha, rfl⟩, List.mem_map.2 ⟨b, hb, rfl⟩, hres⟩
    intro hptr
    have hlt := hmin b hb (Ne.symm hab)
    unfold entryDist at hlt
    rw [hptr] at hlt
    exact lt_irrefl _ hlt

theorem C18_no_ties_witness :
    2 ≤ (registerAll heap5 [0, 1, 2, 3, 4]).Peers.length ∧
    ∃ p q, p ≠ q ∧ p ∈ (registerAll heap5 [0, 1, 2, 3, 4]).Peers.map Prod.snd ∧
      q ∈ (registerAll heap5 [0, 1, 2, 3, 4]).Peers.map Prod.snd ∧
      FindClosestPeers heap5 (registerAll heap5 [0, 1, 2, 3, 4])
        (Runs.inOrder (registerAll heap5 [0, 1, 2, 3, 4])) 16 = Res.ok [p, q] :=
  ⟨by decide,
   (C18_no_ties heap5 [0, 1, 2, 3, 4] (Runs.inOrder (registerAll heap5 [0, 1, 2, 3, 4])) 16
     (Runs.inOrder_valid _)).2 (by decide)⟩

/-! ## shiyan1: InsertNode, FindNode, BroadcastNode -/

theorem KadDHT_InsertNode_same (sha1 : Bytes → Bytes) (h : KadDHT.Heap) (p : Ptr)
    (s : Bytes) :
    (KadDHT.InsertNode sha1 h p s p).Bucket
      = (h p).Bucket.Insert { ID := SetBytes (sha1 s) } := by
  simp [KadDHT.InsertNode]

theorem KadDHT_InsertNode_other (sha1 : Bytes → Bytes) (h : KadDHT.Heap) (p x : Ptr)
    (s : Bytes) (hx : x ≠ p) : KadDHT.InsertNode sha1 h p s x = h x := by
  simp [KadDHT.InsertNode, Function.update, hx]

theorem KadDHT_FindNode_iff (sha1 : Bytes → Bytes) (h : KadDHT.Heap) (p : Ptr) (s : Bytes) :
    KadDHT.FindNode sha1 h p s = true ↔ SetBytes (sha1 s) ∈ (h p).Bucket.ids := by
  unfold KadDHT.FindNode
  exact Bucket.any_iff (h p).Bucket (SetBytes (sha1 s))

/-- After the broadcast loop the bucket of a visited peer is its old bucket with one
`Insert` of the identifier of `text`; the buckets of the other peers are as before. -/
theorem KadDHT_insertEach_bucket (sha1 : Bytes → Bytes) (h : KadDHT.Heap) (text : Bytes)
    (run : List (String × Ptr)) (x : Ptr) :
    (KadDHT.insertEach sha1 h text run x).Bucket
      = if x ∈ run.map Prod.snd then (h x).Bucket.Insert { ID := SetBytes (sha1 text) }
        else (h x).Bucket := by
  induction run generalizing h with
  | nil => simp [KadDHT.insertEach]
  | cons e rest ih =>
    obtain ⟨k, c⟩ := e
    rw [KadDHT.insertEach, ih]
    by_cases hxc : x = c
    · subst hxc
      rw [KadDHT_InsertNode_same]
      have hidem := Bucket.Insert_present
        ((h x).Bucket.Insert { ID := SetBytes (sha1 text) }) { ID := SetBytes (sha1 text) }
        (Bucket.Insert_mem _ _)
      by_cases hin : x ∈ rest.map Prod.snd
      · simp [hin, hidem]
      · simp [hin]
    · rw [KadDHT_InsertNode_other sha1 h c x text hxc]
      simp only [List.map_cons, List.mem_cons, hxc, false_or]

/-- C20 (insert then find). For a peer with any bucket and any name `s`, `FindNode(s)`
right after `InsertNode(s)` returns true; and `FindNode(s)` returns true exactly when the
identifier of `s` is held in the bucket. -/
theorem C20_insert_then_find (sha1 : Bytes → Bytes) (h : KadDHT.Heap) (p : Ptr)
    (s : Bytes) :
    KadDHT.FindNode sha1 (KadDHT.InsertNode sha1 h p s) p s = true ∧
    (KadDHT.FindNode sha1 h p s = true ↔
      SetBytes (sha1 s) ∈ (h p).Bucket.Nodes.map Node.ID) := by
  refine ⟨?_, KadDHT_FindNode_iff sha1 h p s⟩
  rw [KadDHT_FindNode_iff, KadDHT_InsertNode_same]
  exact Bucket.Insert_mem _ _

/-- After `BroadcastNode(x)` the bucket of every visited peer has received the identifier
of the decimal text of the identifier of `x`, not the identifier of `x`. -/
theorem KadDHT_BroadcastNode_bucket (sha1 : Bytes → Bytes) (h : KadDHT.Heap)
    (run : List (String × Ptr)) (x : Bytes) (p : Ptr) (hp : p ∈ run.map Prod.snd) :
    (KadDHT.BroadcastNode sha1 h run x p).Bucket
      = (h p).Bucket.Insert { ID := SetBytes (sha1 (bigBytes (SetBytes (sha1 x)))) } := by
  unfold KadDHT.BroadcastNode
  rw [KadDHT_insertEach_bucket, if_pos hp]

/-- What `FindNode` reports after a broadcast to peers with empty buckets: the decimal
text of the identifier is known, and the broadcast name is known only if hashing that
text gives the identifier of the name again. -/
theorem KadDHT_BroadcastNode_find (sha1 : Bytes → Bytes) (h : KadDHT.Heap)
    (run : List (String × Ptr)) (x : Bytes) (p : Ptr) (hp : p ∈ run.map Prod.snd)
    (hempty : (h p).Bucket = NewBucket) :
    KadDHT.FindNode sha1 (KadDHT.BroadcastNode sha1 h run x) p
      (bigBytes (SetBytes (sha1 x))) = true ∧
    (KadDHT.FindNode sha1 (KadDHT.BroadcastNode sha1 h run x) p x = true ↔
      SetBytes (sha1 x) = SetBytes (sha1 (bigBytes (SetBytes (sha1 x))))) := by
  rw [KadDHT_FindNode_iff, KadDHT_FindNode_iff, KadDHT_BroadcastNode_bucket sha1 h run x p hp,
    hempty]
  constructor
  · exact Bucket.Insert_mem _ _
  · simp [Bucket.Insert, NewBucket, Bucket.ids, K]

set_option maxRecDepth 100000 in
/-- C15 (broadcast propagation) fails on the code. The peers `NewPeer("0")` to
`NewPeer("4")` are registered with `AddPeer`, their buckets empty; after
`BroadcastNode("0")` no registered peer reports "0" as known: each bucket holds the
SHA-1 identifier of the decimal text of the identifier of "0", so `FindNode` succeeds
for that decimal text and fails for "0". -/
theorem C15_broadcast_not_found :
    KadDHT.netMain.Peers.length = 5 ∧
    (∀ p ∈ KadDHT.netMain.Peers.map Prod.snd,
      KadDHT.FindNode SHA1
        (KadDHT.BroadcastNode SHA1 KadDHT.heapMain KadDHT.netMain.Peers [0x30]) p [0x30]
        = false) ∧
    (∀ p ∈ KadDHT.netMain.Peers.map Prod.snd,
      (KadDHT.BroadcastNode SHA1 KadDHT.heapMain KadDHT.netMain.Peers [0x30] p).Bucket.Nodes
        = [{ ID := 0x3abfd8b023223acd951fa94fe2cdab2612d9eeff }]) ∧
    (∀ p ∈ KadDHT.netMain.Peers.map Prod.snd,
      KadDHT.FindNode SHA1
        (KadDHT.BroadcastNode SHA1 KadDHT.heapMain KadDHT.netMain.Peers [0x30]) p
        (bigBytes (SetBytes (SHA1 [0x30]))) = true) ∧
    SetBytes (SHA1 [0x30]) = 0xb6589fc6ab0dc82cf12099d1c2d40ab994e8410c ∧
    bigString (SetBytes (SHA1 [0x30]))
      = "1041012704324150835652886655287508314496841564428" := by
  decide

/-! ## The frame of SetValue -/

theorem writeData_DHT (h : Heap) (peer : Ptr) (key : Bytes) (value : Slice) (x : Ptr) :
    (writeData h peer key value x).DHT = (h x).DHT := by
  unfold writeData
  by_cases hx : x = peer
  · subst hx; simp
  · simp [Function.update, hx]

theorem writeAll_DHT (h : Heap) (key : Bytes) (value : Slice) (cs : List Ptr) (x : Ptr) :
    (writeAll h key value cs x).DHT = (h x).DHT := by
  induction cs generalizing h with
  | nil => rfl
  | cons c rest ih => simp [writeAll, ih, writeData_DHT]

theorem SetValue_DHT (sha1 : Bytes → Bytes) (h : Heap) (r : Runs) (p : Ptr)
    (key : Bytes) (value : Slice) (n : Network) (x : Ptr) :
    ((SetValue sha1 h r p key value n).2 x).DHT = (h x).DHT := by
  rcases SetValue_cases sha1 h r p key value n with hc | hc | hc | ⟨_, cs, _, hc⟩
  · rw [hc]
  · rw [hc]
  · rw [hc]
  · rw [hc]
    simp only [writeData_DHT, writeAll_DHT]

/-- A peer changed by `SetValue` is the caller or one of the peers that the call's
`FindClosestPeers(key)` returned. -/
theorem SetValue_changed (sha1 : Bytes → Bytes) (h : Heap) (r : Runs) (p : Ptr)
    (key : Bytes) (value : Slice) (n : Network) (x : Ptr)
    (hx : (SetValue sha1 h r p key value n).2 x ≠ h x) :
    x = p ∨ ∃ cs, FindClosestPeers h n r (SetBytes key) = Res.ok cs ∧ x ∈ cs := by
  rcases SetValue_cases sha1 h r p key value n with hc | hc | hc | ⟨_, cs, hcs, hc⟩
  · rw [hc] at hx; exact absurd rfl hx
  · rw [hc] at hx; exact absurd rfl hx
  · rw [hc] at hx; exact absurd rfl hx
  · rw [hc] at hx
    by_cases hxp : x = p
    · exact Or.inl hxp
    · refine Or.inr ⟨cs, hcs, ?_⟩
      by_contra hxcs
      apply hx
      show writeData (writeAll h key value cs) p key value x = h x
      rw [writeData_other _ _ _ _ _ hxp, writeAll_not_mem _ _ _ _ _ hxcs]

theorem distinct_ids_distances (h : Heap) (l : List (String × Ptr)) (id : Int)
    (hids : (l.map (fun e => (h e.2).ID)).Nodup) : (l.map (entryDist h id)).Nodup := by
  have := List.Nodup.map (distance_left_injective id) hids
  rw [List.map_map] at this
  exact this

/-- In a directory keyed by identifier the identifiers of the entries are pairwise
distinct. -/
theorem keyedByID_ids_nodup (h : Heap) (l : List (String × Ptr)) (hl : keyedByID h l) :
    (l.map (fun e => (h e.2).ID)).Nodup := by
  have hkeys : l.map Prod.fst = (l.map (fun e => (h e.2).ID)).map bigString := by
    rw [List.map_map]
    exact List.map_congr_left (fun e he => hl.2 e he)
  have := hl.1
  rw [hkeys] at this
  exact List.Nodup.of_map _ this

/-- C11, amended (SetValue frame). For every `SetValue(key, value, net)` call, on any
directory: every peer keeps its identifier and routing table, in every store only the
entry under `key` can differ, and a peer that differs is the caller or one of the peers
returned by the call's `FindClosestPeers(key)`; the call has no write to the directory.
When the identifiers of the directory entries are pairwise distinct, as they are in
every network built from `NewNetwork()` with `AddPeer`, at most 3 peers differ: the
caller and two others. -/
theorem C11_set_value_frame (sha1 : Bytes → Bytes) (h : Heap) (r : Runs) (p : Ptr)
    (key : Bytes) (value : Slice) (n : Network) :
    (∀ x, ((SetValue sha1 h r p key value n).2 x).ID = (h x).ID ∧
      ((SetValue sha1 h r p key value n).2 x).DHT = (h x).DHT) ∧
    (∀ x k, k ≠ key →
      Store.lookup ((SetValue sha1 h r p key value n).2 x).Data k
        = Store.lookup (h x).Data k) ∧
    (∀ x, (SetValue sha1 h r p key value n).2 x ≠ h x →
      x = p ∨ ∃ cs, FindClosestPeers h n r (SetBytes key) = Res.ok cs ∧ x ∈ cs) ∧
    (r.valid n → (n.Peers.map (fun e => (h e.2).ID)).Nodup →
      ∃ a b, ∀ x, (SetValue sha1 h r p key value n).2 x ≠ h x → x = p ∨ x = a ∨ x = b) ∧
    (∀ ps, ((registerAll h ps).Peers.map (fun e => (h e.2).ID)).Nodup) := by
  refine ⟨fun x => ⟨SetValue_ID sha1 h r p key value n x, SetValue_DHT sha1 h r p key value n x⟩,
    fun x k hk => SetValue_lookup_ne sha1 h r p key k value n x hk,
    fun x hx => SetValue_changed sha1 h r p key value n x hx, ?_,
    fun ps => keyedByID_ids_nodup h _ (registerAll_keyedByID h ps)⟩
  intro hr hids
  by_cases h2 : 2 ≤ n.Peers.length
  · obtain ⟨a, b, _, _, _, hres, _⟩ := FindClosestPeers_distinct h n r (SetBytes key) hr h2
      (distinct_ids_distances h n.Peers (SetBytes key) hids)
    refine ⟨a.2, b.2, ?_⟩
    intro x hx
    rcases SetValue_changed sha1 h r p key value n x hx with hxp | ⟨cs, hcs, hxcs⟩
    · exact Or.inl hxp
    · rw [hres] at hcs
      injection hcs with hcs
      rw [← hcs] at hxcs
      simp only [List.mem_cons, List.mem_singleton, List.not_mem_nil, or_false] at hxcs
      exact Or.inr hxcs
  · refine ⟨p, p, ?_⟩
    intro x hx
    rcases SetValue_changed sha1 h r p key value n x hx with hxp | ⟨cs, hcs, _⟩
    · exact Or.inl hxp
    · rw [FindClosestPeers_panic h n r (SetBytes key) (by omega)] at hcs
      cases hcs

set_option maxRecDepth 100000 in
theorem C11_set_value_frame_witness :
    (netMain.Peers.map (fun e => (heapMain e.2).ID)).Nodup ∧
    (SetValue SHA1 heapMain (Runs.inOrder netMain) 4 (SHA1 [0x61]) (some [0x61])
      netMain).1 = Res.ok true ∧
    ∃ a b, ∀ x, (SetValue SHA1 heapMain (Runs.inOrder netMain) 4 (SHA1 [0x61])
      (some [0x61]) netMain).2 x ≠ heapMain x → x = 4 ∨ x = a ∨ x = b :=
  ⟨by decide, by decide,
   (C11_set_value_frame SHA1 heapMain (Runs.inOrder netMain) 4 (SHA1 [0x61]) (some [0x61])
     netMain).2.2.2.1 (Runs.inOrder_valid netMain) (by decide)⟩

set_option maxRecDepth 100000 in
/-- C11, as stated, fails: more than 3 stores can differ. The directory `netTie4` holds
peers 1 and 2 with the same identifier 2 under the keys "2" and "02". When peer 3 calls
`SetValue(sha1(""), "", net)`, `FindClosestPeers` returns the peers 0, 1 and 2, and the
stores of the four peers 0, 1, 2 and 3 differ afterwards, so no caller and two other
peers cover the peers that differ. -/
theorem C11_four_stores_written :
    FindClosestPeers heapTie4 netTie4 (Runs.inOrder netTie4) (SetBytes (SHA1 []))
      = Res.ok [0, 1, 2] ∧
    (heapTie4After 0).Data ≠ (heapTie4 0).Data ∧
    (heapTie4After 1).Data ≠ (heapTie4 1).Data ∧
    (heapTie4After 2).Data ≠ (heapTie4 2).Data ∧
    (heapTie4After 3).Data ≠ (heapTie4 3).Data ∧
    ¬ ∃ a b, ∀ x, heapTie4After x ≠ heapTie4 x → x = 3 ∨ x = a ∨ x = b := by
  have h0 : (heapTie4After 0).Data ≠ (heapTie4 0).Data := by decide
  have h1 : (heapTie4After 1).Data ≠ (heapTie4 1).Data := by decide
  have h2 : (heapTie4After 2).Data ≠ (heapTie4 2).Data := by decide
  have h3 : (heapTie4After 3).Data ≠ (heapTie4 3).Data := by decide
  refine ⟨by decide, h0, h1, h2, h3, ?_⟩
  rintro ⟨a, b, hab⟩
  have c0 : (0 : Nat) = 3 ∨ (0 : Nat) = a ∨ (0 : Nat) = b :=
    hab 0 (fun hh => h0 (congrArg Peer.Data hh))
  have c1 : (1 : Nat) = 3 ∨ (1 : Nat) = a ∨ (1 : Nat) = b :=
    hab 1 (fun hh => h1 (congrArg Peer.Data hh))
  have c2 : (2 : Nat) = 3 ∨ (2 : Nat) = a ∨ (2 : Nat) = b :=
    hab 2 (fun hh => h2 (congrArg Peer.Data hh))
  omega

/-! ## Replication -/

theorem Store.lookup_mem (s : Store) (k : Bytes) (v : Slice)
    (hl : Store.lookup s k = some v) : (k, v) ∈ s := by
  induction s with
  | nil => cases hl
  | cons e rest ih =>
    obtain ⟨k1, v1⟩ := e
    by_cases hk : k1 = k
    · subst hk
      simp only [Store.lookup, if_true] at hl
      injection hl with hl
      subst hl
      exact List.mem_cons_self _ _
    · simp only [Store.lookup, hk, if_false] at hl
      exact List.mem_cons_of_mem _ (ih hl)

theorem FindClosestPeers_registered (h : Heap) (n : Network) (r : Runs) (id : Int)
    (hr : r.valid n) (cs : List Ptr) (hcs : FindClosestPeers h n r id = Res.ok cs)
    (c : Ptr) (hc : c ∈ cs) : c ∈ n.Peers.map Prod.snd := by
  have h2 : 2 ≤ n.Peers.length := by
    by_contra hlt
    rw [FindClosestPeers_panic h n r id (by omega)] at hcs
    cases hcs
  obtain ⟨d0, d1, rest, _, he⟩ := FindClosestPeers_ok h n r id hr h2
  rw [he] at hcs
  injection hcs with hcs
  rw [← hcs] at hc
  rcases List.mem_append.1 hc with hc | hc
  · obtain ⟨e, hmem, hec, _⟩ := (mem_matching _ _ _ _ _).1 hc
    exact List.mem_map.2 ⟨e, hr.2.1.mem_iff.1 hmem, hec⟩
  · obtain ⟨e, hmem, hec, _⟩ := (mem_matching _ _ _ _ _).1 hc
    exact List.mem_map.2 ⟨e, hr.2.2.mem_iff.1 hmem, hec⟩

/-- One `SetValue` call keeps the replication of every key held by a registered peer. -/
theorem SetValue_replicated (sha1 : Bytes → Bytes) (h : Heap) (r : Runs) (p : Ptr)
    (key : Bytes) (value : Slice) (n : Network) (hr : r.valid n)
    (hinv : ∀ k, (∃ x ∈ n.Peers.map Prod.snd, (Store.lookup (h x).Data k).isSome = true) →
      replicated sha1 h n k) (k : Bytes)
    (hk : ∃ x ∈ n.Peers.map Prod.snd,
      (Store.lookup ((SetValue sha1 h r p key value n).2 x).Data k).isSome = true) :
    replicated sha1 (SetValue sha1 h r p key value n).2 n k := by
  rcases SetValue_cases sha1 h r p key value n with hc | hc | hc | ⟨hkey, cs, hcs, hc⟩
  · rw [hc] at hk ⊢; exact hinv k hk
  · rw [hc] at hk ⊢; exact hinv k hk
  · rw [hc] at hk ⊢; exact hinv k hk
  · have hfcp : ∀ r' id, FindClosestPeers (SetValue sha1 h r p key value n).2 n r' id
        = FindClosestPeers h n r' id :=
      fun r' id => FindClosestPeers_congr h _ n r' id (SetValue_ID sha1 h r p key value n)
    by_cases hkk : k = key
    · subst hkk
      intro r' cs' hr' hcs' c hc'
      rw [hfcp] at hcs'
      have hmem : c ∈ cs := (FindClosestPeers_mem_iff h n r r' _ hr hr' _ _ hcs hcs' c).2 hc'
      refine ⟨value, ?_, hkey.symm⟩
      rw [hc]
      exact writeData_lookup_key _ _ _ _ _ (Or.inr (writeAll_lookup_key _ _ _ _ _ (Or.inl hmem)))
    · have hsame : ∀ x, Store.lookup ((SetValue sha1 h r p key value n).2 x).Data k
          = Store.lookup (h x).Data k :=
        fun x => SetValue_lookup_ne sha1 h r p key k value n x hkk
      obtain ⟨x, hx, hheld⟩ := hk
      rw [hsame] at hheld
      have hold := hinv k ⟨x, hx, hheld⟩
      intro r' cs' hr' hcs' c hc'
      rw [hfcp] at hcs'
      rw [hsame]
      exact hold r' cs' hr' hcs' c hc'

theorem runCalls_replicated (sha1 : Bytes → Bytes) (n : Network) (h : Heap)
    (calls : List Call) (hvalid : ∀ c ∈ calls, c.runsValid n)
    (hinv : ∀ k, (∃ x ∈ n.Peers.map Prod.snd, (Store.lookup (h x).Data k).isSome = true) →
      replicated sha1 h n k) :
    ∀ k, (∃ x ∈ n.Peers.map Prod.snd,
        (Store.lookup (runCalls sha1 n h calls x).Data k).isSome = true) →
      replicated sha1 (runCalls sha1 n h calls) n k := by
  induction calls generalizing h with
  | nil => exact hinv
  | cons c rest ih =>
    have hrest : ∀ c' ∈ rest, c'.runsValid n :=
      fun c' hc' => hvalid c' (List.mem_cons_of_mem _ hc')
    have hc := hvalid c (List.mem_cons_self _ _)
    apply ih (step sha1 n h c) hrest
    cases c with
    | set r p key value =>
      exact fun k hk => SetValue_replicated sha1 h r p key value n hc hinv k hk
    | get r p key => exact hinv

/-- No entry of the store has the nil slice as its value. -/
theorem runCalls_no_nil (sha1 : Bytes → Bytes) (n : Network) (h : Heap)
    (calls : List Call) (x : Ptr) (hnil : ∀ c ∈ calls, c.storesNil = false)
    (hx : ∀ e ∈ (h x).Data, e.2 ≠ none) :
    ∀ e ∈ (runCalls sha1 n h calls x).Data, e.2 ≠ none := by
  induction calls generalizing h with
  | nil => exact hx
  | cons c rest ih =>
    have hrest : ∀ c' ∈ rest, c'.storesNil = false :=
      fun c' hc' => hnil c' (List.mem_cons_of_mem _ hc')
    have hc := hnil c (List.mem_cons_self _ _)
    apply ih (step sha1 n h c) hrest
    cases c with
    | set r p key value =>
      intro e he
      rcases SetValue_mem sha1 h r p key value n x e he with h1 | ⟨h1, _⟩
      · exact hx e h1
      · rw [h1]
        intro hv
        simp only at hv
        rw [hv] at hc
        simp [Call.storesNil] at hc
    | get r p key => exact hx

/-- C19, amended (replication invariant). On a network with at least 2 registered peers
whose stores start empty, after any sequence of calls, whenever a registered peer holds a
key `k`, every peer that `FindClosestPeers(k)` returns holds `k` with a value hashing to
`k`, and `GetValue(k, net)` from every registered peer returns a value hashing to `k`;
that value is not nil provided no `SetValue` call was made with a nil value. -/
theorem C19_replication (sha1 : Bytes → Bytes) (h : Heap) (n : Network)
    (calls : List Call) (r : Runs) (x q : Ptr) (k : Bytes) (h2 : 2 ≤ n.Peers.length)
    (hempty : ∀ e ∈ n.Peers, (h e.2).Data = [])
    (hvalid : ∀ c ∈ calls, c.runsValid n) (hr : r.valid n)
    (hx : x ∈ n.Peers.map Prod.snd) (hq : q ∈ n.Peers.map Prod.snd)
    (hheld : (Store.lookup (runCalls sha1 n h calls x).Data k).isSome = true) :
    (∃ cs, FindClosestPeers (runCalls sha1 n h calls) n r (SetBytes k) = Res.ok cs ∧
      ∀ c ∈ cs, ∃ v, Store.lookup (runCalls sha1 n h calls c).Data k = some v ∧
        sha1 (bytesOf v) = k) ∧
    (∃ v, GetValue sha1 (runCalls sha1 n h calls) r q k n = Res.ok v ∧
      sha1 (bytesOf v) = k ∧ ((∀ c ∈ calls, c.storesNil = false) → v ≠ none)) := by
  have hstart : ∀ y ∈ n.Peers.map Prod.snd, (h y).Data = [] := by
    intro y hy
    obtain ⟨e, he, rfl⟩ := List.mem_map.1 hy
    exact hempty e he
  have hinv0 : ∀ k, (∃ y ∈ n.Peers.map Prod.snd,
      (Store.lookup (h y).Data k).isSome = true) → replicated sha1 h n k := by
    rintro k ⟨y, hy, hheld⟩
    rw [hstart y hy] at hheld
    cases hheld
  have hrep := runCalls_replicated sha1 n h calls hvalid hinv0 k ⟨x, hx, hheld⟩
  have haddr : ∀ y ∈ n.Peers.map Prod.snd,
      contentAddressed sha1 (runCalls sha1 n h calls y).Data := by
    intro y hy
    apply runCalls_contentAddressed
    rw [hstart y hy]
    intro e he
    cases he
  have hnonnil : (∀ c ∈ calls, c.storesNil = false) → ∀ y ∈ n.Peers.map Prod.snd,
      ∀ e ∈ (runCalls sha1 n h calls y).Data, e.2 ≠ none := by
    intro hnil y hy
    apply runCalls_no_nil sha1 n h calls y hnil
    rw [hstart y hy]
    intro e he
    cases he
  obtain ⟨d0, d1, rest, _, hcs⟩ :=
    FindClosestPeers_ok (runCalls sha1 n h calls) n r (SetBytes k) hr h2
  generalize matching (runCalls sha1 n h calls) (SetBytes k) d0 r.first
    ++ matching (runCalls sha1 n h calls) (SetBytes k) d1 r.second = cs at hcs
  have hall := hrep r cs hr hcs
  refine ⟨⟨cs, hcs, hall⟩, ?_⟩
  cases hl : Store.lookup (runCalls sha1 n h calls q).Data k with
  | some v =>
    have hmem := Store.lookup_mem _ _ _ hl
    refine ⟨v, GetValue_local sha1 _ r q k n v hl, haddr q hq _ hmem, ?_⟩
    intro hnil
    exact hnonnil hnil q hq _ hmem
  | none =>
    have hne := FindClosestPeers_ne_nil _ n r _ hr cs hcs
    cases cs with
    | nil => exact absurd rfl hne
    | cons c0 crest =>
      obtain ⟨v0, hv0, hhash⟩ := hall c0 (List.mem_cons_self _ _)
      have hfirst : firstValidated sha1 (runCalls sha1 n h calls) k (c0 :: crest) = v0 := by
        rw [firstValidated, hv0]
        simp only [if_pos hhash.symm]
      refine ⟨v0, ?_, hhash, ?_⟩
      · rw [GetValue_remote sha1 _ r q k n hl _ hcs, hfirst]
      · intro hnil
        have hc0 := FindClosestPeers_registered _ n r _ hr _ hcs c0 (List.mem_cons_self _ _)
        exact hnonnil hnil c0 hc0 _ (Store.lookup_mem _ _ _ hv0)

set_option maxRecDepth 100000 in
theorem C19_replication_witness :
    2 ≤ net5.Peers.length ∧
    (Store.lookup (runCalls SHA1 net5 heap5
      [Call.set (Runs.inOrder net5) 0 (SHA1 [0x61]) (some [0x61])] 0).Data
      (SHA1 [0x61])).isSome = true ∧
    ∃ v, GetValue SHA1 (runCalls SHA1 net5 heap5
        [Call.set (Runs.inOrder net5) 0 (SHA1 [0x61]) (some [0x61])])
        (Runs.inOrder net5) 4 (SHA1 [0x61]) net5 = Res.ok v ∧
      SHA1 (bytesOf v) = SHA1 [0x61] ∧
      ((∀ c ∈ [Call.set (Runs.inOrder net5) 0 (SHA1 [0x61]) (some [0x61])],
        c.storesNil = false) → v ≠ none) :=
  ⟨by decide, by decide,
   (C19_replication SHA1 heap5 net5
     [Call.set (Runs.inOrder net5) 0 (SHA1 [0x61]) (some [0x61])] (Runs.inOrder net5) 0 4
     (SHA1 [0x61]) (by decide) (fun _ _ => rfl)
     (fun c hc => by
       rw [List.mem_singleton.1 hc]
       exact Runs.inOrder_valid net5)
     (Runs.inOrder_valid net5) (by decide) (by decide) (by decide)).2⟩

set_option maxRecDepth 100000 in
/-- C19, as stated, fails. The peers `NewPeer("0")` to `NewPeer("4")` are registered with
`AddPeer`, their stores empty, and peer 0 calls `SetValue(sha1(nil), nil, net)`, which
returns true. Peer 0 then holds the key, and `GetValue` for that key returns nil, the
absent result, from every registered peer. -/
theorem C19_nil_value_reads_absent :
    netMain.Peers.length = 5 ∧
    (SetValue SHA1 heapMain (Runs.inOrder netMain) 0 (SHA1 []) none netMain).1
      = Res.ok true ∧
    (Store.lookup (heapMainNil 0).Data (SHA1 [])).isSome = true ∧
    (∀ q ∈ netMain.Peers.map Prod.snd,
      GetValue SHA1 heapMainNil (Runs.inOrder netMain) q (SHA1 []) netMain = Res.ok none) := by
  decide

end KBucket
